import Mathlib

/-!
Verification of the expert-swapping cache in
src/ktransformers/util/swapper.py (class Swapper).

Shallow embedding conventions:
* Tensor payloads are opaque binary blobs; each of gate/up/down and the
  metadata mapping is modelled as a Nat (the calls cpu() and pin_memory()
  preserve payload bits and are modelled as the identity).
* The OrderedDict memory_cache is a list of (id, value) pairs in recency
  order: head = least recently used, tail = most recently used.
  popitem(last := false) pops the head; move_to_end appends at the tail.
* A Python dict (pending_ops, and the set of files in storage_dir) is an
  association list; assignment on an existing key replaces the binding in
  place, on a fresh key it appends.
* The save task of _swap_out_lru and register_expert returns the Python
  value True; a cache slot can therefore hold either an expert 4-tuple or
  the value True, which is the CVal type below.  Slicing True (the
  expression data[0] or data[:3]) raises TypeError.
* Futures: a pending operation is either still running or completed with
  a result.  The effect of a task (a disk write for a save, a disk read
  for a load) is applied at completion time.  The scheduler is modelled
  by an explicit "advance" event that completes a running task; blocking
  calls (future.result with no prior done observation) complete the task
  in place.  future.wait(timeout) is modelled by a Boolean oracle passed
  to get_expert, since its outcome depends on real time.
* Errors: Err.notFound is FileNotFoundError, Err.timeout is TimeoutError,
  Err.typeErr is TypeError, Err.taskError is an exception re-raised from
  a failed task by future.result().  Operations that mutate state before
  raising return the mutated state together with the error, mirroring
  Python exception semantics.
-/

set_option autoImplicit false

namespace Swapper

/-- One expert record: gate, up, down payloads and the metadata mapping. -/
structure EData where
  gate : Nat
  up : Nat
  down : Nat
  md : Nat
deriving DecidableEq, Repr

/-- A value stored in a memory-cache slot: either an expert 4-tuple, or the
Python value True that a completed save task returns (get_expert stores a
consumed future result into the cache without inspecting it). -/
inductive CVal where
  | edata (e : EData)
  | pytrue
deriving DecidableEq, Repr

/-- An asynchronous unit of work submitted to the CPUInfer pool: the save
closure of _swap_out_lru / register_expert (capturing the id and the data
at creation time), or the load closure of background swap_in. -/
inductive PTask where
  | save (eid : String) (v : CVal)
  | load (eid : String)
deriving DecidableEq, Repr

/-- The outcome of a completed task: TRes.ok carries the Python return
value (True for a save, the loaded 4-tuple for a load); TRes.err means
the task raised an exception. -/
inductive TRes where
  | ok (v : CVal)
  | err
deriving DecidableEq, Repr

/-- The observable state of a future: still running, or completed with a
result. -/
inductive FState where
  | running (t : PTask)
  | done (r : TRes)
deriving DecidableEq, Repr

/-- Exceptions the Swapper methods can raise. -/
inductive Err where
  | notFound
  | timeout
  | typeErr
  | taskError
deriving DecidableEq, Repr

/-- Python return values of the Swapper methods. -/
inductive Ret where
  | unit
  | none
  | val (v : CVal)
  | triple (g u d : Nat)
deriving DecidableEq, Repr

/-- The whole Swapper state.  cache is the OrderedDict memory_cache in
recency order (head least recent); onDisk is the set on_disk;
accessPattern is the list access_pattern; pending is the dict pending_ops;
disk is the set of files in storage_dir, keyed by expert id. -/
structure State where
  maxMemory : Nat
  cache : List (String × CVal)
  onDisk : List String
  accessPattern : List String
  pending : List (String × FState)
  disk : List (String × EData)
deriving DecidableEq, Repr

/-- A freshly constructed Swapper over an empty storage directory. -/
def emptyState (maxMem : Nat) : State :=
  ⟨maxMem, [], [], [], [], []⟩

section AList

variable {β : Type}

/-- First-occurrence lookup in an association list (dict lookup). -/
def alookup : List (String × β) → String → Option β
  | [], _ => none
  | (k, v) :: t, x => if k = x then some v else alookup t x

/-- Dict assignment: replace the first binding in place, or append. -/
def aset : List (String × β) → String → β → List (String × β)
  | [], x, v => [(x, v)]
  | (k, w) :: t, x, v => if k = x then (x, v) :: t else (k, w) :: aset t x v

/-- Dict deletion: remove the first binding of the key. -/
def aerase : List (String × β) → String → List (String × β)
  | [], _ => []
  | (k, w) :: t, x => if k = x then t else (k, w) :: aerase t x

/-- OrderedDict move_to_end: move the binding of the key to the tail.
A no-op when the key is absent (all call sites in the source guard on
membership, so that branch is never taken). -/
def moveToEnd (l : List (String × β)) (x : String) : List (String × β) :=
  match alookup l x with
  | none => l
  | some v => aerase l x ++ [(x, v)]

end AList

/-- Set insertion for on_disk (a Python set; order of iteration is never
observed, so a duplicate-free list suffices). -/
def sinsert (l : List String) (x : String) : List String :=
  if x ∈ l then l else l ++ [x]

/-- Set removal / discard for on_disk. -/
def sremove (l : List String) (x : String) : List String :=
  l.filter (fun y => y ≠ x)

/-- Run a task to completion: apply its effect to the disk and produce the
result the future will hold.  A save of a 4-tuple writes the record and
returns True; a save of the value True raises TypeError while building
the dict to serialize (data[0]), before touching the file.  A load reads
the record, raising if the file is absent. -/
def completeTask (disk : List (String × EData)) :
    PTask → List (String × EData) × TRes
  | .save eid v =>
    match v with
    | .edata e => (aset disk eid e, .ok .pytrue)
    | .pytrue => (disk, .err)
  | .load eid =>
    match alookup disk eid with
    | some e => (disk, .ok (.edata e))
    | none => (disk, .err)

/-- _swap_out_lru: pop the least-recently-used cache entry, submit an
asynchronous save of it, record the future in pending_ops and mark the id
on disk.  A no-op when the cache is empty. -/
def swapOutLru (s : State) : State :=
  match s.cache with
  | [] => s
  | (eid, v) :: rest =>
    { s with
      cache := rest,
      pending := aset s.pending eid (.running (.save eid v)),
      onDisk := sinsert s.onDisk eid }

/-- The capacity loop of swap_in: while len(memory_cache) >= threshold,
call _swap_out_lru.  Fuel-indexed; called with fuel = cache length, which
is exactly the number of iterations after which the cache is empty and
popping makes no further progress.  Divergence cut-off: with threshold 0
the Python condition len >= 0 is always true and _swap_out_lru is a no-op
on an empty cache, so the source loop spins forever once the cache is
empty; the model stops there instead.  Threshold 0 is reached in
synchronous mode when max_memory_experts = 0 and in background mode
(threshold max_memory_experts - 1) when max_memory_experts <= 1, so
theorems whose claims depend on the call returning carry a capacity
hypothesis excluding those configurations. -/
def evictLoop : Nat → Nat → State → State
  | 0, _, s => s
  | fuel + 1, t, s =>
    if t ≤ s.cache.length ∧ s.cache ≠ [] then evictLoop fuel t (swapOutLru s)
    else s

/-- Record the id in access_pattern, trimming to 100 entries (append then
pop the front when the length exceeds 100). -/
def recordAccess (s : State) (eid : String) : State :=
  let ap := s.accessPattern ++ [eid]
  { s with accessPattern := if 100 < ap.length then ap.tail else ap }

/-- The body of swap_in after the pending-operation check (source lines
88-126): record access, hit the cache or evict and load. -/
def swapInMain (s : State) (eid : String) (bg : Bool) : Except Err Ret × State :=
  let s2 := recordAccess s eid
  match alookup s2.cache eid with
  | some v =>
    (.ok (if bg then .none else .val v), { s2 with cache := moveToEnd s2.cache eid })
  | none =>
    let t := s2.maxMemory - (if bg then 1 else 0)
    let s4 := evictLoop s2.cache.length t s2
    if bg then
      (.ok .none, { s4 with pending := aset s4.pending eid (.running (.load eid)) })
    else
      match alookup s4.disk eid with
      | none => (.error .notFound, s4)
      | some d =>
        (.ok (.val (.edata d)),
         { s4 with
           cache := moveToEnd (aset s4.cache eid (.edata d)) eid,
           onDisk := sremove s4.onDisk eid })

/-- Swapper.swap_in.  The pending-operation check of lines 79-86: a done
future is dropped; a running one in synchronous mode is completed in
place by future.result() (the entry is kept, only its status changes; a
raised task error propagates); a running one in background mode returns
None at once. -/
def swapIn (s : State) (eid : String) (bg : Bool) : Except Err Ret × State :=
  match alookup s.pending eid with
  | some (.done _) => swapInMain { s with pending := aerase s.pending eid } eid bg
  | some (.running tk) =>
    if bg then (.ok .none, s)
    else
      let c := completeTask s.disk tk
      let s1 := { s with disk := c.1, pending := aset s.pending eid (.done c.2) }
      match c.2 with
      | .err => (.error .taskError, s1)
      | .ok _ => swapInMain s1 eid bg
  | none => swapInMain s eid bg

/-- Swapper.swap_out: if resident, synchronously write the record, remove
it from the cache and mark it on disk.  Serializing the Python value True
raises TypeError before any mutation. -/
def swapOut (s : State) (eid : String) : Except Err Ret × State :=
  match alookup s.cache eid with
  | none => (.ok .unit, s)
  | some .pytrue => (.error .typeErr, s)
  | some (.edata e) =>
    (.ok .unit,
     { s with
       disk := aset s.disk eid e,
       cache := aerase s.cache eid,
       onDisk := sinsert s.onDisk eid })

/-- Slice a cached value to its first three components (data[:3]); slicing
the Python value True raises TypeError. -/
def sliceC : CVal → Except Err Ret
  | .edata e => .ok (.triple e.gate e.up e.down)
  | .pytrue => .error .typeErr

/-- Slice the return value of swap_in (the expression swap_in(...)[:3]).
Slicing None or a non-tuple raises TypeError. -/
def slice3 : Ret → Except Err Ret
  | .val v => sliceC v
  | _ => .error .typeErr

/-- The final fallback of get_expert: return self.swap_in(id)[:3]. -/
def getFallback (s : State) (eid : String) : Except Err Ret × State :=
  let r := swapIn s eid false
  match r.1 with
  | .error e => (.error e, r.2)
  | .ok v => (slice3 v, r.2)

/-- Swapper.get_expert.  waitOk is the oracle for future.wait(timeout):
whether the running task finished within the deadline.  Mirrors the source
exactly: a cache hit is checked first; a done pending future is consumed
and its raw result stored into the cache (with no capacity enforcement
and no recency promotion call, the fresh key lands at the tail); a
running future with a timeout either completes (consume, admit, return)
or raises TimeoutError leaving everything as it was; a running future
with timeout None falls through to the synchronous swap_in. -/
def getExpert (s : State) (eid : String) (timeout : Option Nat) (waitOk : Bool) :
    Except Err Ret × State :=
  match alookup s.cache eid with
  | some v => (sliceC v, { s with cache := moveToEnd s.cache eid })
  | none =>
    match alookup s.pending eid with
    | some (.done r) =>
      match r with
      | .err => (.error .taskError, s)
      | .ok v =>
        (sliceC v,
         { s with pending := aerase s.pending eid, cache := aset s.cache eid v })
    | some (.running tk) =>
      match timeout with
      | some _ =>
        if waitOk then
          let c := completeTask s.disk tk
          match c.2 with
          | .err =>
            (.error .taskError,
             { s with disk := c.1, pending := aset s.pending eid (.done c.2) })
          | .ok v =>
            (sliceC v,
             { s with
               disk := c.1,
               pending := aerase s.pending eid,
               cache := aset s.cache eid v })
        else (.error .timeout, s)
      | none => getFallback s eid
    | none => getFallback s eid

/-- Swapper.register_expert: pin the payloads (identity on bits), insert
as most recently used, and if persist, submit an asynchronous save and
mark the id on disk. -/
def registerExpert (s : State) (eid : String) (g u d m : Nat) (persist : Bool) :
    Except Err Ret × State :=
  let e : EData := ⟨g, u, d, m⟩
  let s1 := { s with cache := moveToEnd (aset s.cache eid (.edata e)) eid }
  if persist then
    (.ok .unit,
     { s1 with
       pending := aset s1.pending eid (.running (.save eid (.edata e))),
       onDisk := sinsert s1.onDisk eid })
  else (.ok .unit, s1)

/-- Swapper.unregister_expert: drop from the cache; if marked on disk,
delete the file (os.remove raises FileNotFoundError when the file is
absent, in which case the marker is kept) and clear the marker.  The
pending-operation table is not touched. -/
def unregisterExpert (s : State) (eid : String) : Except Err Ret × State :=
  let s1 := { s with cache := aerase s.cache eid }
  if eid ∈ s1.onDisk then
    match alookup s1.disk eid with
    | none => (.error .notFound, s1)
    | some _ =>
      (.ok .unit, { s1 with disk := aerase s1.disk eid, onDisk := sremove s1.onDisk eid })
  else (.ok .unit, s1)

/-- The loop body of flush over a snapshot of the pending keys: a done
future is dropped (its result, error or not, is discarded); a running one
is completed by future.result() and then dropped, unless it raised, in
which case flush aborts with the entry kept as a completed future. -/
def flushGo : List String → State → Except Err Ret × State
  | [], s => (.ok .unit, s)
  | k :: ks, s =>
    match alookup s.pending k with
    | none => flushGo ks s
    | some (.done _) => flushGo ks { s with pending := aerase s.pending k }
    | some (.running tk) =>
      let c := completeTask s.disk tk
      match c.2 with
      | .err =>
        (.error .taskError, { s with disk := c.1, pending := aset s.pending k (.done c.2) })
      | .ok _ => flushGo ks { s with disk := c.1, pending := aerase s.pending k }

/-- Swapper.flush: drain the pending-operation table, iterating over a
snapshot of its keys. -/
def flush (s : State) : Except Err Ret × State :=
  flushGo (s.pending.map Prod.fst) s

/-- Scheduler event: the worker pool finishes the running task of the
given id (no-op when there is none).  Its effect is applied to the disk
and the future becomes done. -/
def advance (s : State) (eid : String) : State :=
  match alookup s.pending eid with
  | some (.running tk) =>
    let c := completeTask s.disk tk
    { s with disk := c.1, pending := aset s.pending eid (.done c.2) }
  | _ => s

/-- One caller-visible event: a Swapper method call or a scheduler step. -/
inductive Act where
  | swapIn (eid : String) (bg : Bool)
  | getExpert (eid : String) (timeout : Option Nat) (waitOk : Bool)
  | swapOut (eid : String)
  | register (eid : String) (g u d m : Nat) (persist : Bool)
  | unregister (eid : String)
  | flush
  | advance (eid : String)
deriving DecidableEq, Repr

/-- Step of the event semantics. -/
def stepAct (s : State) : Act → Except Err Ret × State
  | .swapIn e b => swapIn s e b
  | .getExpert e t w => getExpert s e t w
  | .swapOut e => swapOut s e
  | .register e g u d m p => registerExpert s e g u d m p
  | .unregister e => unregisterExpert s e
  | .flush => flush s
  | .advance e => (.ok .unit, advance s e)

/-- Run a sequence of events, keeping only the final state (raised
exceptions leave the state mutations made before the raise in place,
exactly as in Python, and the run continues with the next call). -/
def run (s : State) : List Act → State
  | [] => s
  | a :: rest => run (stepAct s a).2 rest

end Swapper

namespace Swapper

/-! ### Annotated semantics for the LRU claim

The same step functions, with each memory-cache entry carrying a ghost
timestamp: the value of a global counter at the moment the entry was last
inserted or promoted.  Erasing the timestamps recovers the code semantics
exactly (theorem for claim C5); on the annotated states the cache list is
always strictly sorted by timestamp, so the entry the eviction routine
pops (the head) is the least recently promoted or inserted resident. -/

/-- Swapper state with a ghost timestamp on every cache entry and a ghost
global clock. -/
structure AState where
  maxMemory : Nat
  cache : List (String × CVal × Nat)
  onDisk : List String
  accessPattern : List String
  pending : List (String × FState)
  disk : List (String × EData)
  clock : Nat
deriving DecidableEq, Repr

/-- Drop the timestamps of an annotated cache. -/
def eraseC (l : List (String × CVal × Nat)) : List (String × CVal) :=
  l.map (fun p => (p.1, p.2.1))

/-- Drop the ghost data of an annotated state. -/
def eraseA (a : AState) : State :=
  ⟨a.maxMemory, eraseC a.cache, a.onDisk, a.accessPattern, a.pending, a.disk⟩

/-- Annotated fresh Swapper. -/
def emptyA (maxMem : Nat) : AState :=
  ⟨maxMem, [], [], [], [], [], 0⟩

/-- Insert or promote an entry to most recently used, stamping it with the
current clock. -/
def touchA (a : AState) (eid : String) (v : CVal) : AState :=
  { a with cache := aerase a.cache eid ++ [(eid, v, a.clock)], clock := a.clock + 1 }

/-- Annotated _swap_out_lru. -/
def swapOutLruA (a : AState) : AState :=
  match a.cache with
  | [] => a
  | (eid, v, _) :: rest =>
    { a with
      cache := rest,
      pending := aset a.pending eid (.running (.save eid v)),
      onDisk := sinsert a.onDisk eid }

/-- Annotated capacity loop. -/
def evictLoopA : Nat → Nat → AState → AState
  | 0, _, a => a
  | fuel + 1, t, a =>
    if t ≤ a.cache.length ∧ a.cache ≠ [] then evictLoopA fuel t (swapOutLruA a)
    else a

/-- Annotated access recording. -/
def recordAccessA (a : AState) (eid : String) : AState :=
  let ap := a.accessPattern ++ [eid]
  { a with accessPattern := if 100 < ap.length then ap.tail else ap }

/-- Annotated swap_in body. -/
def swapInMainA (a : AState) (eid : String) (bg : Bool) : Except Err Ret × AState :=
  let s2 := recordAccessA a eid
  match alookup s2.cache eid with
  | some vt => (.ok (if bg then .none else .val vt.1), touchA s2 eid vt.1)
  | none =>
    let t := s2.maxMemory - (if bg then 1 else 0)
    let s4 := evictLoopA s2.cache.length t s2
    if bg then
      (.ok .none, { s4 with pending := aset s4.pending eid (.running (.load eid)) })
    else
      match alookup s4.disk eid with
      | none => (.error .notFound, s4)
      | some d =>
        (.ok (.val (.edata d)),
         { touchA s4 eid (.edata d) with onDisk := sremove s4.onDisk eid })

/-- Annotated swap_in. -/
def swapInA (a : AState) (eid : String) (bg : Bool) : Except Err Ret × AState :=
  match alookup a.pending eid with
  | some (.done _) => swapInMainA { a with pending := aerase a.pending eid } eid bg
  | some (.running tk) =>
    if bg then (.ok .none, a)
    else
      let c := completeTask a.disk tk
      let s1 := { a with disk := c.1, pending := aset a.pending eid (.done c.2) }
      match c.2 with
      | .err => (.error .taskError, s1)
      | .ok _ => swapInMainA s1 eid bg
  | none => swapInMainA a eid bg

/-- Annotated swap_out. -/
def swapOutA (a : AState) (eid : String) : Except Err Ret × AState :=
  match alookup a.cache eid with
  | none => (.ok .unit, a)
  | some vt =>
    match vt.1 with
    | .pytrue => (.error .typeErr, a)
    | .edata e =>
      (.ok .unit,
       { a with
         disk := aset a.disk eid e,
         cache := aerase a.cache eid,
         onDisk := sinsert a.onDisk eid })

/-- Annotated get_expert fallback. -/
def getFallbackA (a : AState) (eid : String) : Except Err Ret × AState :=
  let r := swapInA a eid false
  match r.1 with
  | .error e => (.error e, r.2)
  | .ok v => (slice3 v, r.2)

/-- Annotated get_expert. -/
def getExpertA (a : AState) (eid : String) (timeout : Option Nat) (waitOk : Bool) :
    Except Err Ret × AState :=
  match alookup a.cache eid with
  | some vt => (sliceC vt.1, touchA a eid vt.1)
  | none =>
    match alookup a.pending eid with
    | some (.done r) =>
      match r with
      | .err => (.error .taskError, a)
      | .ok v =>
        (sliceC v,
         { a with
           pending := aerase a.pending eid,
           cache := aset a.cache eid (v, a.clock),
           clock := a.clock + 1 })
    | some (.running tk) =>
      match timeout with
      | some _ =>
        if waitOk then
          let c := completeTask a.disk tk
          match c.2 with
          | .err =>
            (.error .taskError,
             { a with disk := c.1, pending := aset a.pending eid (.done c.2) })
          | .ok v =>
            (sliceC v,
             { a with
               disk := c.1,
               pending := aerase a.pending eid,
               cache := aset a.cache eid (v, a.clock),
               clock := a.clock + 1 })
        else (.error .timeout, a)
      | none => getFallbackA a eid
    | none => getFallbackA a eid

/-- Annotated register_expert. -/
def registerExpertA (a : AState) (eid : String) (g u d m : Nat) (persist : Bool) :
    Except Err Ret × AState :=
  let e : EData := ⟨g, u, d, m⟩
  let s1 := touchA a eid (.edata e)
  if persist then
    (.ok .unit,
     { s1 with
       pending := aset s1.pending eid (.running (.save eid (.edata e))),
       onDisk := sinsert s1.onDisk eid })
  else (.ok .unit, s1)

/-- Annotated unregister_expert. -/
def unregisterExpertA (a : AState) (eid : String) : Except Err Ret × AState :=
  let s1 := { a with cache := aerase a.cache eid }
  if eid ∈ s1.onDisk then
    match alookup s1.disk eid with
    | none => (.error .notFound, s1)
    | some _ =>
      (.ok .unit, { s1 with disk := aerase s1.disk eid, onDisk := sremove s1.onDisk eid })
  else (.ok .unit, s1)

/-- Annotated flush loop. -/
def flushGoA : List String → AState → Except Err Ret × AState
  | [], a => (.ok .unit, a)
  | k :: ks, a =>
    match alookup a.pending k with
    | none => flushGoA ks a
    | some (.done _) => flushGoA ks { a with pending := aerase a.pending k }
    | some (.running tk) =>
      let c := completeTask a.disk tk
      match c.2 with
      | .err =>
        (.error .taskError, { a with disk := c.1, pending := aset a.pending k (.done c.2) })
      | .ok _ => flushGoA ks { a with disk := c.1, pending := aerase a.pending k }

/-- Annotated flush. -/
def flushA (a : AState) : Except Err Ret × AState :=
  flushGoA (a.pending.map Prod.fst) a

/-- Annotated scheduler event. -/
def advanceA (a : AState) (eid : String) : AState :=
  match alookup a.pending eid with
  | some (.running tk) =>
    let c := completeTask a.disk tk
    { a with disk := c.1, pending := aset a.pending eid (.done c.2) }
  | _ => a

/-- Annotated event step. -/
def stepActA (a : AState) : Act → Except Err Ret × AState
  | .swapIn e b => swapInA a e b
  | .getExpert e t w => getExpertA a e t w
  | .swapOut e => swapOutA a e
  | .register e g u d m p => registerExpertA a e g u d m p
  | .unregister e => unregisterExpertA a e
  | .flush => flushA a
  | .advance e => (.ok .unit, advanceA a e)

/-- Annotated run. -/
def runA (a : AState) : List Act → AState
  | [] => a
  | act :: rest => runA (stepActA a act).2 rest

/-- The annotated cache is strictly sorted by timestamp: the head is the
least recently promoted or inserted resident. -/
def cacheSorted (l : List (String × CVal × Nat)) : Prop :=
  List.Pairwise (fun p q => p.2.2 < q.2.2) l

instance (l : List (String × CVal × Nat)) : Decidable (cacheSorted l) := by
  unfold cacheSorted
  infer_instance

/-! ### Spec-side predicates and concrete scenario states -/

/-- Spec-side predicate for claim C3: executing event a in state s issues
a write-back of id x.  For register this is persist mode on x itself; for
swap_out it is a synchronous write of a resident record; for swap_in and
get_expert it is an eviction of x during the call, witnessed by x having
been resident before the call and holding a freshly issued save future
afterwards. -/
def issuesWriteBack (s : State) (a : Act) (x : String) : Prop :=
  match a with
  | .register e _ _ _ _ p => p = true ∧ x = e
  | .swapOut e => x = e ∧ ∃ ed, alookup s.cache e = some (.edata ed)
  | .swapIn _ _ =>
    x ∈ s.cache.map Prod.fst ∧
      ∃ v, alookup (stepAct s a).2.pending x = some (.running (.save x v))
  | .getExpert _ _ _ =>
    x ∈ s.cache.map Prod.fst ∧
      ∃ v, alookup (stepAct s a).2.pending x = some (.running (.save x v))
  | _ => False


/-- Equality of method outcomes is decidable (needed to evaluate the
model on concrete scenarios). -/
instance : DecidableEq (Except Err Ret) := fun a b =>
  match a, b with
  | .error x, .error y =>
    match decEq x y with
    | isTrue h => isTrue (by rw [h])
    | isFalse h => isFalse (fun hh => h (Except.error.inj hh))
  | .error _, .ok _ => isFalse (fun hh => Except.noConfusion hh)
  | .ok _, .error _ => isFalse (fun hh => Except.noConfusion hh)
  | .ok x, .ok y =>
    match decEq x y with
    | isTrue h => isTrue (by rw [h])
    | isFalse h => isFalse (fun hh => h (Except.ok.inj hh))


/-- Erase the ghost data of an (outcome, annotated state) pair. -/
def eraseP (p : Except Err Ret × AState) : Except Err Ret × State :=
  (p.1, eraseA p.2)

/-- The ghost invariant: cache strictly sorted by timestamp, all
timestamps below the clock. -/
def InvA (a : AState) : Prop :=
  cacheSorted a.cache ∧ ∀ p ∈ a.cache, p.2.2 < a.clock

/-- Concrete annotated state for the LRU witness. -/
def c5wit : AState :=
  { emptyA 2 with
    cache := [("A", .edata ⟨1, 2, 3, 4⟩, 5), ("B", .pytrue, 7)],
    clock := 9 }

/-- Claim C9 witness state: capacity 8, A resident, B on disk only. -/
def c9wit : State :=
  { emptyState 8 with
    cache := [("A", .edata ⟨1, 2, 3, 4⟩)],
    disk := [("B", ⟨5, 6, 7, 8⟩)] }

/-- Claim C1 scenario: capacity 1, records for A and B already on disk. -/
def c1start : State :=
  { emptyState 1 with disk := [("A", ⟨1, 2, 3, 4⟩), ("B", ⟨5, 6, 7, 8⟩)] }

/-- Claim C1 scenario after swap_in(A), swap_in(B) (which evicts A and
issues its write-back) and the completion of that write-back. -/
def c1mid : State :=
  run c1start [.swapIn "A" false, .swapIn "B" false, .advance "A"]

/-- Claim C2 scenario: capacity 2; A, B, C registered and persisted (and
not resident: each is registered and then synchronously swapped out, so
all three records are on disk and the cache is empty). -/
def c2setup : State :=
  run (emptyState 2)
    [.register "A" 1 2 3 4 false, .swapOut "A",
     .register "B" 5 6 7 8 false, .swapOut "B",
     .register "C" 9 10 11 12 false, .swapOut "C"]

/-- Claim C2 scenario after swap_in(A) and swap_in(B). -/
def c2ab : State := run c2setup [.swapIn "A" false, .swapIn "B" false]

/-- Claim C2 scenario after the further swap_in(C). -/
def c2abc : State := run c2ab [.swapIn "C" false]

/-- Claim C6 counterexample state: a fresh Swapper right after
register_expert("A", ..., persist := true), which leaves a pending save. -/
def c6state : State := (registerExpert (emptyState 8) "A" 1 2 3 4 true).2

/-- Claim C7 witness state: a pending background load for A, not done. -/
def c7state : State :=
  { emptyState 8 with pending := [("A", .running (.load "A"))] }

/-- Claim C8 scenario: register A (not persisted), synchronously swap it
out, then synchronously swap it back in; the swap_in clears the on-disk
marker but leaves the file. -/
def c8mid : State :=
  run (emptyState 8) [.register "A" 1 2 3 4 false, .swapOut "A", .swapIn "A" false]

/-- Claim C8 scenario after unregister_expert("A"). -/
def c8final : State := run c8mid [.unregister "A"]

/-- Claim C3 counterexample: register A without persist, swap it out (so A
is in the on-disk set), then synchronously swap it back in. -/
def c3mid : State := run (emptyState 8) [.register "A" 1 2 3 4 false, .swapOut "A"]

end Swapper

namespace Swapper

/-! ### Association-list lemmas -/

section AListLemmas

variable {β : Type}

theorem alookup_aset_self (l : List (String × β)) (x : String) (v : β) :
    alookup (aset l x v) x = some v := by
  induction l with
  | nil => simp [aset, alookup]
  | cons p t ih =>
    obtain ⟨k, w⟩ := p
    by_cases h : k = x
    · simp [aset, alookup, h]
    · simp [aset, alookup, h, ih]

theorem alookup_aset_ne (l : List (String × β)) (k x : String) (v : β) (h : k ≠ x) :
    alookup (aset l k v) x = alookup l x := by
  induction l with
  | nil => simp [aset, alookup, h]
  | cons p t ih =>
    obtain ⟨k2, w⟩ := p
    by_cases h2 : k2 = k
    · subst h2; simp [aset, alookup, h]
    · simp [aset, alookup, h2, ih]

theorem alookup_eq_none (l : List (String × β)) (x : String) :
    alookup l x = none ↔ x ∉ l.map Prod.fst := by
  induction l with
  | nil => simp [alookup]
  | cons p t ih =>
    obtain ⟨k, w⟩ := p
    by_cases h : k = x
    · simp [alookup, h]
    · simp [alookup, h, ih, Ne.symm h]

theorem aerase_of_not_mem (l : List (String × β)) (x : String)
    (h : x ∉ l.map Prod.fst) : aerase l x = l := by
  induction l with
  | nil => simp [aerase]
  | cons p t ih =>
    obtain ⟨k, w⟩ := p
    simp only [List.map_cons, List.mem_cons] at h
    push_neg at h
    have hk : ¬ (k = x) := fun hh => h.1 hh.symm
    simp [aerase, hk, ih h.2]

theorem aerase_aset (l : List (String × β)) (x : String) (v : β) :
    aerase (aset l x v) x = aerase l x := by
  induction l with
  | nil => simp [aset, aerase]
  | cons p t ih =>
    obtain ⟨k, w⟩ := p
    by_cases h : k = x
    · simp [aset, aerase, h]
    · simp [aset, aerase, h, ih]

theorem mte_aset (l : List (String × β)) (x : String) (v : β) :
    moveToEnd (aset l x v) x = aerase l x ++ [(x, v)] := by
  rw [moveToEnd, alookup_aset_self, aerase_aset]

theorem aerase_sublist (l : List (String × β)) (x : String) :
    List.Sublist (aerase l x) l := by
  induction l with
  | nil => simp [aerase]
  | cons p t ih =>
    obtain ⟨k, w⟩ := p
    by_cases h : k = x
    · simp [aerase, h]
    · simpa [aerase, h] using List.Sublist.cons₂ (k, w) ih

theorem keys_aerase_nodup (l : List (String × β)) (x : String)
    (h : (l.map Prod.fst).Nodup) : ((aerase l x).map Prod.fst).Nodup :=
  h.sublist (List.Sublist.map Prod.fst (aerase_sublist l x))

theorem not_mem_keys_aerase (l : List (String × β)) (x : String)
    (h : (l.map Prod.fst).Nodup) : x ∉ (aerase l x).map Prod.fst := by
  induction l with
  | nil => simp [aerase]
  | cons p t ih =>
    obtain ⟨k, w⟩ := p
    simp only [List.map_cons, List.nodup_cons] at h
    by_cases hk : k = x
    · subst hk; simpa [aerase] using fun h2 => h.1 h2
    · intro hmem
      simp only [aerase, if_neg hk, List.map_cons, List.mem_cons] at hmem
      rcases hmem with h1 | h2
      · exact hk h1.symm
      · exact ih h.2 h2

theorem alookup_append_right (l1 l2 : List (String × β)) (x : String)
    (h : x ∉ l1.map Prod.fst) : alookup (l1 ++ l2) x = alookup l2 x := by
  induction l1 with
  | nil => simp
  | cons p t ih =>
    obtain ⟨k, w⟩ := p
    simp only [List.map_cons, List.mem_cons] at h
    push_neg at h
    have hk : ¬ (k = x) := fun hh => h.1 hh.symm
    simp [alookup, hk, ih h.2]

theorem aerase_append_singleton (l1 : List (String × β)) (x : String) (v : β)
    (h : x ∉ l1.map Prod.fst) : aerase (l1 ++ [(x, v)]) x = l1 := by
  induction l1 with
  | nil => simp [aerase]
  | cons p t ih =>
    obtain ⟨k, w⟩ := p
    simp only [List.map_cons, List.mem_cons] at h
    push_neg at h
    have hk : ¬ (k = x) := fun hh => h.1 hh.symm
    simp [aerase, hk, ih h.2]

theorem mem_keys_of_alookup (l : List (String × β)) (x : String) (v : β)
    (h : alookup l x = some v) : x ∈ l.map Prod.fst := by
  by_contra hc
  rw [← alookup_eq_none] at hc
  rw [h] at hc
  exact Option.noConfusion hc

end AListLemmas

theorem mem_sinsert (l : List String) (x y : String) :
    y ∈ sinsert l x ↔ y ∈ l ∨ y = x := by
  unfold sinsert
  by_cases h : x ∈ l
  · simp only [if_pos h]
    constructor
    · exact fun h2 => Or.inl h2
    · rintro (h2 | rfl)
      · exact h2
      · exact h
  · simp [if_neg h]

theorem mem_sremove (l : List String) (x y : String) :
    y ∈ sremove l x ↔ y ∈ l ∧ y ≠ x := by
  simp [sremove]

end Swapper

namespace Swapper

/-! ### Structural lemmas about the eviction loop and operation bodies -/

theorem swapOutLru_maxMemory (s : State) : (swapOutLru s).maxMemory = s.maxMemory := by
  unfold swapOutLru
  cases s.cache with
  | nil => rfl
  | cons p rest => obtain ⟨k, v⟩ := p; rfl

theorem swapOutLru_disk (s : State) : (swapOutLru s).disk = s.disk := by
  unfold swapOutLru
  cases s.cache with
  | nil => rfl
  | cons p rest => obtain ⟨k, v⟩ := p; rfl

theorem swapOutLru_accessPattern (s : State) :
    (swapOutLru s).accessPattern = s.accessPattern := by
  unfold swapOutLru
  cases s.cache with
  | nil => rfl
  | cons p rest => obtain ⟨k, v⟩ := p; rfl

theorem swapOutLru_cache_sublist (s : State) :
    List.Sublist (swapOutLru s).cache s.cache := by
  unfold swapOutLru
  cases h : s.cache with
  | nil => simp [h]
  | cons p rest => obtain ⟨k, v⟩ := p; simp [h]

theorem evictLoop_maxMemory (fuel t : Nat) (s : State) :
    (evictLoop fuel t s).maxMemory = s.maxMemory := by
  induction fuel generalizing s with
  | zero => rfl
  | succ n ih =>
    unfold evictLoop
    by_cases h : t ≤ s.cache.length ∧ s.cache ≠ []
    · rw [if_pos h, ih, swapOutLru_maxMemory]
    · rw [if_neg h]

theorem evictLoop_disk (fuel t : Nat) (s : State) :
    (evictLoop fuel t s).disk = s.disk := by
  induction fuel generalizing s with
  | zero => rfl
  | succ n ih =>
    unfold evictLoop
    by_cases h : t ≤ s.cache.length ∧ s.cache ≠ []
    · rw [if_pos h, ih, swapOutLru_disk]
    · rw [if_neg h]

theorem evictLoop_accessPattern (fuel t : Nat) (s : State) :
    (evictLoop fuel t s).accessPattern = s.accessPattern := by
  induction fuel generalizing s with
  | zero => rfl
  | succ n ih =>
    unfold evictLoop
    by_cases h : t ≤ s.cache.length ∧ s.cache ≠ []
    · rw [if_pos h, ih, swapOutLru_accessPattern]
    · rw [if_neg h]

theorem evictLoop_cache_sublist (fuel t : Nat) (s : State) :
    List.Sublist (evictLoop fuel t s).cache s.cache := by
  induction fuel generalizing s with
  | zero => exact List.Sublist.refl _
  | succ n ih =>
    unfold evictLoop
    by_cases h : t ≤ s.cache.length ∧ s.cache ≠ []
    · rw [if_pos h]
      exact (ih (swapOutLru s)).trans (swapOutLru_cache_sublist s)
    · rw [if_neg h]

/-- Keys whose cached binding is absent stay absent through the loop. -/
theorem evictLoop_cache_not_mem (fuel t : Nat) (s : State) (x : String)
    (h : x ∉ s.cache.map Prod.fst) :
    x ∉ (evictLoop fuel t s).cache.map Prod.fst :=
  fun hmem => h (List.Sublist.subset
    (List.Sublist.map Prod.fst (evictLoop_cache_sublist fuel t s)) hmem)

/-- Pending entries of ids not resident in the cache are untouched by the
eviction loop (the loop only writes pending entries of popped cache keys). -/
theorem evictLoop_pending_not_cached (fuel t : Nat) (s : State) (x : String)
    (h : x ∉ s.cache.map Prod.fst) :
    alookup (evictLoop fuel t s).pending x = alookup s.pending x := by
  induction fuel generalizing s with
  | zero => rfl
  | succ n ih =>
    unfold evictLoop
    by_cases hc : t ≤ s.cache.length ∧ s.cache ≠ []
    · rw [if_pos hc]
      have hx : x ∉ (swapOutLru s).cache.map Prod.fst := by
        intro hmem
        exact h (List.Sublist.subset
          (List.Sublist.map Prod.fst (swapOutLru_cache_sublist s)) hmem)
      rw [ih (swapOutLru s) hx]
      unfold swapOutLru
      cases hcs : s.cache with
      | nil => rfl
      | cons p rest =>
        obtain ⟨k, v⟩ := p
        have hk : k ≠ x := by
          intro hkx
          apply h
          rw [hcs, hkx]
          simp
        simp only
        rw [alookup_aset_ne s.pending k x _ hk]
    · rw [if_neg hc]

theorem recordAccess_cache (s : State) (eid : String) :
    (recordAccess s eid).cache = s.cache := rfl

theorem recordAccess_pending (s : State) (eid : String) :
    (recordAccess s eid).pending = s.pending := rfl

theorem recordAccess_disk (s : State) (eid : String) :
    (recordAccess s eid).disk = s.disk := rfl

theorem recordAccess_maxMemory (s : State) (eid : String) :
    (recordAccess s eid).maxMemory = s.maxMemory := rfl

theorem recordAccess_onDisk (s : State) (eid : String) :
    (recordAccess s eid).onDisk = s.onDisk := rfl

end Swapper

namespace Swapper

/-! ### Claims C9, C7, C10 -/

/-- In background mode the body of swap_in returns None on every path. -/
theorem swapInMain_bg (s : State) (eid : String) :
    (swapInMain s eid true).1 = .ok .none := by
  unfold swapInMain
  cases h : alookup (recordAccess s eid).cache eid with
  | some v => simp [h]
  | none => simp [h]

/-- Claim C9: for every expert id and every state with
max_memory_experts at least 2, swap_in with background true returns
None, whether the id is resident, pending or absent.  The capacity
hypothesis excludes the configurations (max_memory_experts at most 1)
where the background capacity loop of the source, whose threshold is
max_memory_experts - 1, would spin forever on a non-resident id and the
call would never return. -/
theorem swapIn_background_returns_none (s : State) (eid : String)
    (hmax : 2 ≤ s.maxMemory) :
    (swapIn s eid true).1 = .ok .none := by
  unfold swapIn
  cases h : alookup s.pending eid with
  | none => simp only [h]; exact swapInMain_bg s eid
  | some f =>
    cases f with
    | done r => simp only [h]; exact swapInMain_bg _ eid
    | running tk => simp [h]

/-- Witness for claim C9 at a concrete state: a fresh capacity-8 Swapper
holding a resident record for A and a disk record for B, exercised on a
resident, an absent-but-on-disk, and a fully absent id. -/
theorem swapIn_background_returns_none_witness :
    (swapIn c9wit "A" true).1 = .ok .none ∧
    (swapIn c9wit "B" true).1 = .ok .none ∧
    (swapIn c9wit "C" true).1 = .ok .none :=
  ⟨swapIn_background_returns_none c9wit "A" (by decide),
   swapIn_background_returns_none c9wit "B" (by decide),
   swapIn_background_returns_none c9wit "C" (by decide)⟩

/-- Claim C7: if id is not resident and has a pending operation that is
not done, then get_expert with a timeout whose deadline is exceeded (the
wait oracle reports failure) raises TimeoutError and returns the state
completely unchanged; in particular the pending table still holds the
same running handle for the id. -/
theorem getExpert_timeout_preserves_state (s : State) (eid : String) (tk : PTask)
    (t : Nat) (hc : alookup s.cache eid = none)
    (hp : alookup s.pending eid = some (.running tk)) :
    getExpert s eid (some t) false = (.error .timeout, s) := by
  unfold getExpert
  simp only [hc, hp]
  rfl

/-- Witness for claim C7 at a concrete state. -/
theorem getExpert_timeout_preserves_state_witness :
    getExpert c7state "A" (some 0) false = (.error .timeout, c7state) :=
  getExpert_timeout_preserves_state c7state "A" (.load "A") 0 (by decide) (by decide)

/-- A pending entry for the requested id survives the synchronous body of
swap_in unchanged (the body only writes pending entries of evicted cache
keys, which are distinct from a requested id that is either resident, in
which case no eviction runs, or absent from the cache). -/
theorem swapInMain_pending_stable (s : State) (eid : String) (f : FState)
    (h : alookup s.pending eid = some f) :
    alookup (swapInMain s eid false).2.pending eid = some f := by
  unfold swapInMain
  cases hc : alookup (recordAccess s eid).cache eid with
  | some v => simpa [hc, recordAccess_pending] using h
  | none =>
    have hnm : eid ∉ (recordAccess s eid).cache.map Prod.fst := (alookup_eq_none _ _).1 hc
    simp only [hc, Bool.false_eq_true, if_false, Nat.sub_zero]
    generalize hg : evictLoop (recordAccess s eid).cache.length
      (recordAccess s eid).maxMemory (recordAccess s eid) = s4
    have hev : alookup s4.pending eid = some f := by
      rw [← hg, evictLoop_pending_not_cached _ _ _ _ hnm, recordAccess_pending]
      exact h
    cases hd : alookup s4.disk eid with
    | none => simpa [hd] using hev
    | some d => simpa [hd] using hev

/-- Claim C10: a synchronous swap_in that finds a running pending
operation for the id blocks on it (completing it in place) but never
deletes the entry: afterwards the pending table still holds a handle for
the id, now in the done state, whether the call then returned normally or
raised. -/
theorem swapIn_blocking_keeps_pending (s : State) (eid : String) (tk : PTask)
    (hp : alookup s.pending eid = some (.running tk)) :
    ∃ r, alookup (swapIn s eid false).2.pending eid = some (.done r) := by
  unfold swapIn
  simp only [hp]
  cases hres : (completeTask s.disk tk).2 with
  | err =>
    refine ⟨.err, ?_⟩
    simp only [hres]
    exact alookup_aset_self s.pending eid (.done .err)
  | ok v =>
    refine ⟨.ok v, ?_⟩
    simp only [hres]
    exact swapInMain_pending_stable _ eid _ (by
      rw [← hres]
      exact alookup_aset_self s.pending eid _)

/-- Witness for claim C10 at a concrete state. -/
theorem swapIn_blocking_keeps_pending_witness :
    ∃ r, alookup (swapIn c7state "A" false).2.pending "A" = some (.done r) :=
  swapIn_blocking_keeps_pending c7state "A" (.load "A") (by decide)

end Swapper

namespace Swapper

/-! ### Claims C1, C2, C3 (counterexample), C8, C6 -/

/-- Claim C1 (code bug): with max_memory_experts = 1 and records A, B on
disk, the synchronous calls swap_in(A); swap_in(B) leave one resident and
a pending write-back of A; once that write-back completes, get_expert(A)
consumes the done store handle, inserts its raw result (the value True)
into the memory cache with no capacity check — the cache now has 2 > 1
entries — and raises TypeError; the following swap_in(B) (a cache hit)
completes normally and still leaves 2 entries resident. -/
theorem capacity_bound_violated_by_store_consume :
    c1mid.maxMemory = 1 ∧
    c1mid.cache.length = 1 ∧
    (getExpert c1mid "A" none false).1 = .error .typeErr ∧
    (getExpert c1mid "A" none false).2.cache.length = 2 ∧
    alookup (getExpert c1mid "A" none false).2.cache "A" = some .pytrue ∧
    (swapIn (getExpert c1mid "A" none false).2 "B" false).1
      = .ok (.val (.edata ⟨5, 6, 7, 8⟩)) ∧
    (swapIn (getExpert c1mid "A" none false).2 "B" false).2.cache.length = 2 := by
  decide

/-- Claim C2: capacity 2, A, B, C registered and persisted (register plus
synchronous swap_out each).  swap_in(A); swap_in(B) makes A, B resident in
that recency order; swap_in(C) evicts A, issuing its write-back, leaving
residents B, C; get_expert(A) while the write-back is still running takes
the fallback synchronous swap_in path (which completes the write-back,
evicts B and reads A back from disk), returns the original payloads of A
and leaves residents C, A with size 2. -/
theorem eviction_under_pressure_scenario :
    c2ab.cache.map Prod.fst = ["A", "B"] ∧
    c2abc.cache.map Prod.fst = ["B", "C"] ∧
    alookup c2abc.pending "A" = some (.running (.save "A" (.edata ⟨1, 2, 3, 4⟩))) ∧
    "A" ∈ c2abc.onDisk ∧
    (getExpert c2abc "A" none false).1 = .ok (.triple 1 2 3) ∧
    (getExpert c2abc "A" none false).2.cache.map Prod.fst = ["C", "A"] ∧
    (getExpert c2abc "A" none false).2.cache.length = 2 := by
  decide

/-- Counterexample to claim C3 as stated: after register(A) and a
synchronous swap_out(A), A is in the on-disk set; the following
synchronous swap_in(A) — which is not an unregistration — removes A from
the on-disk set (source line 124, on_disk.discard). -/
theorem onDisk_cleared_without_unregister :
    "A" ∈ c3mid.onDisk ∧ "A" ∉ (run c3mid [.swapIn "A" false]).onDisk := by
  decide

/-- Claim C8 (code bug): register A (not persisted), swap_out(A),
swap_in(A).  The swap_in cleared the on-disk marker while the file
survived, so unregister_expert(A) removes A from the cache but skips the
file deletion; a subsequent synchronous swap_in(A) then succeeds and
returns the payloads instead of failing with NotFound. -/
theorem unregister_leaves_record_loadable :
    "A" ∉ c8mid.onDisk ∧
    alookup c8mid.disk "A" = some ⟨1, 2, 3, 4⟩ ∧
    alookup c8final.cache "A" = none ∧
    alookup c8final.disk "A" = some ⟨1, 2, 3, 4⟩ ∧
    (swapIn c8final "A" false).1 = .ok (.val (.edata ⟨1, 2, 3, 4⟩)) := by
  decide

/-- Counterexample to claim C6 as stated ("a no-op both times"): from a
state with a pending save (a fresh register with persist), the first
flush returns without error but is not a no-op — it completes the save
and empties the pending table, changing the state. -/
theorem flush_first_call_not_noop :
    (flush c6state).1 = .ok .unit ∧ (flush c6state).2 ≠ c6state := by
  decide

/-- Keys of an erased association list are keys of the original. -/
theorem mem_keys_aerase {β : Type} (l : List (String × β)) (x y : String)
    (h : y ∈ (aerase l x).map Prod.fst) : y ∈ l.map Prod.fst :=
  List.Sublist.subset (List.Sublist.map Prod.fst (aerase_sublist l x)) h

/-- If the flush loop over a key snapshot covering all pending keys
returns without error, the pending table is empty afterwards. -/
theorem flushGo_ok_drains (ks : List String) :
    ∀ s : State, (s.pending.map Prod.fst).Nodup →
      (∀ k ∈ s.pending.map Prod.fst, k ∈ ks) →
      (flushGo ks s).1 = .ok .unit → (flushGo ks s).2.pending = [] := by
  induction ks with
  | nil =>
    intro s hnd hsub hok
    cases hp : s.pending with
    | nil => simp [flushGo, hp]
    | cons p t =>
      exfalso
      have := hsub p.1 (by rw [hp]; simp)
      simp at this
  | cons k ks ih =>
    intro s hnd hsub hok
    cases hl : alookup s.pending k with
    | none =>
      have hk : k ∉ s.pending.map Prod.fst := (alookup_eq_none _ _).1 hl
      simp only [flushGo, hl] at hok ⊢
      refine ih s hnd (fun k2 hk2 => ?_) hok
      rcases hsub k2 (by exact hk2) with h1
      rcases List.mem_cons.1 h1 with rfl | h2
      · exact absurd hk2 hk
      · exact h2
    | some f =>
      cases f with
      | done r =>
        simp only [flushGo, hl] at hok ⊢
        refine ih _ (keys_aerase_nodup s.pending k hnd) (fun k2 hk2 => ?_) hok
        have hmem : k2 ∈ s.pending.map Prod.fst := mem_keys_aerase s.pending k k2 hk2
        have hne : k2 ≠ k := by
          intro hkk
          rw [hkk] at hk2
          exact not_mem_keys_aerase s.pending k hnd hk2
        rcases List.mem_cons.1 (hsub k2 hmem) with h1 | h2
        · exact absurd h1 hne
        · exact h2
      | running tk =>
        cases hres : (completeTask s.disk tk).2 with
        | err => simp [flushGo, hl, hres] at hok
        | ok v =>
          simp only [flushGo, hl, hres] at hok ⊢
          refine ih _ (keys_aerase_nodup s.pending k hnd) (fun k2 hk2 => ?_) hok
          have hmem : k2 ∈ s.pending.map Prod.fst := mem_keys_aerase s.pending k k2 hk2
          have hne : k2 ≠ k := by
            intro hkk
            rw [hkk] at hk2
            exact not_mem_keys_aerase s.pending k hnd hk2
          rcases List.mem_cons.1 (hsub k2 hmem) with h1 | h2
          · exact absurd h1 hne
          · exact h2

/-- Claim C6 amended: when flush returns without error the pending table
is empty, and a second consecutive flush is then a no-op; when nothing is
pending, flush itself is a no-op.  (The original claim is stronger — that
both of two consecutive flush calls are always no-ops — and is refuted by
flush_first_call_not_noop: the first call completes and drains any
pending operation, changing the state.) -/
theorem flush_terminal_and_idempotent (s : State)
    (hnd : (s.pending.map Prod.fst).Nodup) :
    ((flush s).1 = .ok .unit →
       (flush s).2.pending = [] ∧ flush (flush s).2 = (.ok .unit, (flush s).2))
    ∧ (s.pending = [] → flush s = (.ok .unit, s)) := by
  constructor
  · intro hok
    have hempty : (flush s).2.pending = [] :=
      flushGo_ok_drains (s.pending.map Prod.fst) s hnd (fun k hk => hk) hok
    refine ⟨hempty, ?_⟩
    show flush (flush s).2 = (.ok .unit, (flush s).2)
    rw [flush, hempty]
    rfl
  · intro hp
    rw [flush, hp]
    rfl

/-- Witness for claim C6 (amended) at a concrete state with one pending
save: the first flush succeeds, drains the table, and the second flush is
a no-op. -/
theorem flush_terminal_and_idempotent_witness :
    (flush c6state).2.pending = [] ∧
    flush (flush c6state).2 = (.ok .unit, (flush c6state).2) :=
  (flush_terminal_and_idempotent c6state (by decide)).1 (by decide)

end Swapper

namespace Swapper

/-! ### Claim C4: round trip -/

/-- The synchronous body of swap_in on a cache miss with the record on
disk returns the record (the eviction loop touches neither the disk nor
the absence of the requested id). -/
theorem swapInMain_sync_load (s : State) (eid : String) (e : EData)
    (hc : alookup s.cache eid = none) (hd : alookup s.disk eid = some e) :
    (swapInMain s eid false).1 = .ok (.val (.edata e)) := by
  unfold swapInMain
  have hc2 : alookup (recordAccess s eid).cache eid = none := by
    rw [recordAccess_cache]; exact hc
  simp only [hc2, Bool.false_eq_true, if_false, Nat.sub_zero]
  generalize hg : evictLoop (recordAccess s eid).cache.length
    (recordAccess s eid).maxMemory (recordAccess s eid) = s4
  have hd4 : alookup s4.disk eid = some e := by
    rw [← hg, evictLoop_disk, recordAccess_disk]
    exact hd
  simp [hd4]

/-- Claim C4: from any well-formed state (no duplicate cache keys, at
least one expert of capacity), register_expert(id, g, u, d, m) followed by
swap_out(id) followed by a synchronous swap_in(id) returns payloads
bit-identical to g, u, d (with the metadata), whether or not the save
future created by the registration has completed in between (sched). -/
theorem register_swapOut_swapIn_roundtrip (s : State) (eid : String)
    (g u d m : Nat) (sched : Bool)
    (hnd : (s.cache.map Prod.fst).Nodup) (hmax : 1 ≤ s.maxMemory) :
    (swapIn (if sched then
               advance ((swapOut ((registerExpert s eid g u d m true).2) eid).2) eid
             else (swapOut ((registerExpert s eid g u d m true).2) eid).2)
       eid false).1 = .ok (.val (.edata ⟨g, u, d, m⟩)) := by
  have hnk : eid ∉ (aerase s.cache eid).map Prod.fst := not_mem_keys_aerase s.cache eid hnd
  have hreg : (registerExpert s eid g u d m true).2 =
      { s with
        cache := aerase s.cache eid ++ [(eid, .edata ⟨g, u, d, m⟩)],
        pending := aset s.pending eid (.running (.save eid (.edata ⟨g, u, d, m⟩))),
        onDisk := sinsert s.onDisk eid } := by
    simp [registerExpert, mte_aset]
  have hlook1 : alookup ((registerExpert s eid g u d m true).2).cache eid
      = some (.edata ⟨g, u, d, m⟩) := by
    rw [hreg]
    show alookup (aerase s.cache eid ++ [(eid, .edata ⟨g, u, d, m⟩)]) eid = _
    rw [alookup_append_right _ _ _ hnk]
    simp [alookup]
  have hswo : (swapOut ((registerExpert s eid g u d m true).2) eid).2 =
      { s with
        cache := aerase s.cache eid,
        pending := aset s.pending eid (.running (.save eid (.edata ⟨g, u, d, m⟩))),
        onDisk := sinsert (sinsert s.onDisk eid) eid,
        disk := aset s.disk eid ⟨g, u, d, m⟩ } := by
    unfold swapOut
    rw [hlook1]
    rw [hreg]
    simp only
    rw [aerase_append_singleton _ _ _ hnk]
  have hcache2 : alookup (aerase s.cache eid) eid = none := (alookup_eq_none _ _).2 hnk
  cases sched with
  | false =>
    simp only [Bool.false_eq_true, if_false]
    rw [hswo]
    unfold swapIn
    simp only [alookup_aset_self]
    simp only [completeTask]
    apply swapInMain_sync_load
    · exact hcache2
    · exact alookup_aset_self _ _ _
  | true =>
    simp only [if_true]
    rw [hswo]
    unfold advance
    simp only [alookup_aset_self]
    simp only [completeTask]
    unfold swapIn
    simp only [alookup_aset_self]
    apply swapInMain_sync_load
    · exact hcache2
    · exact alookup_aset_self _ _ _

/-- Witness for claim C4 at a concrete state and payloads, for both
completion schedules. -/
theorem register_swapOut_swapIn_roundtrip_witness :
    (swapIn (advance ((swapOut ((registerExpert (emptyState 8) "E" 1 2 3 4 true).2) "E").2) "E")
       "E" false).1 = .ok (.val (.edata ⟨1, 2, 3, 4⟩)) ∧
    (swapIn ((swapOut ((registerExpert (emptyState 8) "E" 1 2 3 4 true).2) "E").2)
       "E" false).1 = .ok (.val (.edata ⟨1, 2, 3, 4⟩)) := by
  constructor
  · exact register_swapOut_swapIn_roundtrip (emptyState 8) "E" 1 2 3 4 true
      (by decide) (by decide)
  · exact register_swapOut_swapIn_roundtrip (emptyState 8) "E" 1 2 3 4 false
      (by decide) (by decide)

end Swapper


namespace Swapper

/-! ### Claim C3: the on-disk set -/

theorem mem_sinsert_left (l : List String) (x y : String) (h : y ∈ l) :
    y ∈ sinsert l x := (mem_sinsert l x y).2 (Or.inl h)

/-- Explicit form of _swap_out_lru on a nonempty cache. -/
theorem swapOutLru_spec (s : State) (eid : String) (v : CVal)
    (rest : List (String × CVal)) (h : s.cache = (eid, v) :: rest) :
    swapOutLru s =
      { s with
        cache := rest,
        pending := aset s.pending eid (.running (.save eid v)),
        onDisk := sinsert s.onDisk eid } := by
  unfold swapOutLru
  rw [h]

theorem swapOutLru_onDisk_mono (s : State) (x : String) (h : x ∈ s.onDisk) :
    x ∈ (swapOutLru s).onDisk := by
  cases hcs : s.cache with
  | nil => unfold swapOutLru; rw [hcs]; exact h
  | cons p rest =>
    obtain ⟨k, v⟩ := p
    rw [swapOutLru_spec s k v rest hcs]
    exact mem_sinsert_left s.onDisk k x h

theorem evictLoop_onDisk_mono (fuel t : Nat) (s : State) (x : String)
    (h : x ∈ s.onDisk) : x ∈ (evictLoop fuel t s).onDisk := by
  induction fuel generalizing s with
  | zero => exact h
  | succ n ih =>
    unfold evictLoop
    by_cases hc : t ≤ s.cache.length ∧ s.cache ≠ []
    · rw [if_pos hc]
      exact ih (swapOutLru s) (swapOutLru_onDisk_mono s x h)
    · rw [if_neg hc]
      exact h

/-- A pending entry of the shape "running save of x" survives the
eviction loop: the loop only overwrites pending entries with entries of
exactly that shape. -/
theorem evictLoop_pending_save_preserved (fuel t : Nat) (s : State) (x : String)
    (h : ∃ v, alookup s.pending x = some (.running (.save x v))) :
    ∃ v, alookup (evictLoop fuel t s).pending x = some (.running (.save x v)) := by
  induction fuel generalizing s with
  | zero => exact h
  | succ n ih =>
    unfold evictLoop
    by_cases hc : t ≤ s.cache.length ∧ s.cache ≠ []
    · rw [if_pos hc]
      refine ih (swapOutLru s) ?_
      cases hcs : s.cache with
      | nil => unfold swapOutLru; rw [hcs]; exact h
      | cons p rest =>
        obtain ⟨k, v⟩ := p
        rw [swapOutLru_spec s k v rest hcs]
        by_cases hk : k = x
        · subst hk
          exact ⟨v, alookup_aset_self s.pending k (.running (.save k v))⟩
        · obtain ⟨w, hw⟩ := h
          exact ⟨w, by rw [alookup_aset_ne s.pending k x _ hk]; exact hw⟩
    · rw [if_neg hc]
      exact h

/-- Any id newly marked on disk by the eviction loop was resident before
and holds a freshly issued save future afterwards. -/
theorem evictLoop_onDisk_new (fuel t : Nat) (s : State) (x : String)
    (h : x ∈ (evictLoop fuel t s).onDisk) :
    x ∈ s.onDisk ∨
      (x ∈ s.cache.map Prod.fst ∧
        ∃ v, alookup (evictLoop fuel t s).pending x = some (.running (.save x v))) := by
  induction fuel generalizing s with
  | zero => exact Or.inl h
  | succ n ih =>
    rw [evictLoop] at h ⊢
    by_cases hc : t ≤ s.cache.length ∧ s.cache ≠ []
    · rw [if_pos hc] at h ⊢
      cases hcs : s.cache with
      | nil => exact absurd hcs hc.2
      | cons p rest =>
        obtain ⟨k, v⟩ := p
        rw [swapOutLru_spec s k v rest hcs] at h ⊢
        rcases ih _ h with h1 | ⟨h2, h3⟩
        · rcases (mem_sinsert s.onDisk k x).1 h1 with hm | rfl
          · exact Or.inl hm
          · refine Or.inr ⟨by simp, ?_⟩
            refine evictLoop_pending_save_preserved n t _ x ?_
            exact ⟨v, alookup_aset_self s.pending x (.running (.save x v))⟩
        · refine Or.inr ⟨?_, h3⟩
          simp only [List.map_cons, List.mem_cons]
          right
          simpa using h2
    · rw [if_neg hc] at h ⊢
      exact Or.inl h

/-- Any id newly marked on disk by the body of swap_in was resident
before the call and holds a save future afterwards. -/
theorem swapInMain_onDisk_new (s : State) (eid : String) (bg : Bool) (x : String)
    (hpre : x ∉ s.onDisk) (hpost : x ∈ (swapInMain s eid bg).2.onDisk) :
    x ∈ s.cache.map Prod.fst ∧
      ∃ v, alookup (swapInMain s eid bg).2.pending x = some (.running (.save x v)) := by
  cases hc : alookup (recordAccess s eid).cache eid with
  | some v =>
    simp only [swapInMain, hc] at hpost
    exact absurd hpost hpre
  | none =>
    have heid : eid ∉ (recordAccess s eid).cache.map Prod.fst := (alookup_eq_none _ _).1 hc
    cases bg with
    | true =>
      simp only [swapInMain, hc, if_true] at hpost ⊢
      have h4 := evictLoop_onDisk_new (recordAccess s eid).cache.length
        ((recordAccess s eid).maxMemory - 1) (recordAccess s eid) x hpost
      rcases h4 with h1 | ⟨h2, w, h3⟩
      · exact absurd h1 hpre
      · have hx : x ≠ eid := fun hxe => heid (hxe ▸ h2)
        refine ⟨h2, w, ?_⟩
        rw [alookup_aset_ne _ _ _ _ (fun he => hx he.symm)]
        exact h3
    | false =>
      cases hd : alookup (evictLoop (recordAccess s eid).cache.length
          ((recordAccess s eid).maxMemory - 0) (recordAccess s eid)).disk eid with
      | none =>
        simp only [swapInMain, hc, Bool.false_eq_true, if_false, hd] at hpost ⊢
        have h4 := evictLoop_onDisk_new (recordAccess s eid).cache.length
          ((recordAccess s eid).maxMemory - 0) (recordAccess s eid) x hpost
        rcases h4 with h1 | ⟨h2, h3⟩
        · exact absurd h1 hpre
        · exact ⟨h2, h3⟩
      | some d =>
        simp only [swapInMain, hc, Bool.false_eq_true, if_false, hd] at hpost ⊢
        have hx2 := ((mem_sremove _ _ _).1 hpost).1
        have h4 := evictLoop_onDisk_new (recordAccess s eid).cache.length
          ((recordAccess s eid).maxMemory - 0) (recordAccess s eid) x hx2
        rcases h4 with h1 | ⟨h2, h3⟩
        · exact absurd h1 hpre
        · exact ⟨h2, h3⟩

/-- Any id newly marked on disk by swap_in was resident before the call
and holds a save future afterwards. -/
theorem swapIn_onDisk_new (s : State) (eid : String) (bg : Bool) (x : String)
    (hpre : x ∉ s.onDisk) (hpost : x ∈ (swapIn s eid bg).2.onDisk) :
    x ∈ s.cache.map Prod.fst ∧
      ∃ v, alookup (swapIn s eid bg).2.pending x = some (.running (.save x v)) := by
  cases hp : alookup s.pending eid with
  | none =>
    simp only [swapIn, hp] at hpost ⊢
    exact swapInMain_onDisk_new s eid bg x hpre hpost
  | some f =>
    cases f with
    | done r =>
      simp only [swapIn, hp] at hpost ⊢
      exact swapInMain_onDisk_new _ eid bg x (by exact hpre) hpost
    | running tk =>
      cases bg with
      | true =>
        simp only [swapIn, hp, if_true] at hpost
        exact absurd hpost hpre
      | false =>
        cases hres : (completeTask s.disk tk).2 with
        | err =>
          simp only [swapIn, hp, Bool.false_eq_true, if_false, hres] at hpost
          exact absurd hpost hpre
        | ok v =>
          simp only [swapIn, hp, Bool.false_eq_true, if_false, hres] at hpost ⊢
          exact swapInMain_onDisk_new _ eid false x (by exact hpre) hpost

/-- The body of swap_in removes an id from the on-disk set only in the
synchronous branch and only for the requested id itself. -/
theorem swapInMain_onDisk_removed (s : State) (eid : String) (bg : Bool) (x : String)
    (hpre : x ∈ s.onDisk) (hpost : x ∉ (swapInMain s eid bg).2.onDisk) :
    bg = false ∧ x = eid := by
  cases hc : alookup (recordAccess s eid).cache eid with
  | some v =>
    simp only [swapInMain, hc] at hpost
    exact absurd hpre hpost
  | none =>
    cases bg with
    | true =>
      simp only [swapInMain, hc, if_true] at hpost
      exact absurd (evictLoop_onDisk_mono _ _ (recordAccess s eid) x (by exact hpre)) hpost
    | false =>
      refine ⟨rfl, ?_⟩
      cases hd : alookup (evictLoop (recordAccess s eid).cache.length
          ((recordAccess s eid).maxMemory - 0) (recordAccess s eid)).disk eid with
      | none =>
        simp only [swapInMain, hc, Bool.false_eq_true, if_false, hd] at hpost
        exact absurd (evictLoop_onDisk_mono _ _ (recordAccess s eid) x (by exact hpre)) hpost
      | some d =>
        simp only [swapInMain, hc, Bool.false_eq_true, if_false, hd] at hpost
        by_contra hne
        exact hpost ((mem_sremove _ _ _).2
          ⟨evictLoop_onDisk_mono _ _ (recordAccess s eid) x (by exact hpre), hne⟩)

/-- swap_in removes an id from the on-disk set only synchronously and
only for the requested id itself. -/
theorem swapIn_onDisk_removed (s : State) (eid : String) (bg : Bool) (x : String)
    (hpre : x ∈ s.onDisk) (hpost : x ∉ (swapIn s eid bg).2.onDisk) :
    bg = false ∧ x = eid := by
  cases hp : alookup s.pending eid with
  | none =>
    simp only [swapIn, hp] at hpost
    exact swapInMain_onDisk_removed s eid bg x hpre hpost
  | some f =>
    cases f with
    | done r =>
      simp only [swapIn, hp] at hpost
      exact swapInMain_onDisk_removed _ eid bg x (by exact hpre) hpost
    | running tk =>
      cases bg with
      | true =>
        simp only [swapIn, hp, if_true] at hpost
        exact absurd hpre hpost
      | false =>
        cases hres : (completeTask s.disk tk).2 with
        | err =>
          simp only [swapIn, hp, Bool.false_eq_true, if_false, hres] at hpost
          exact absurd hpre hpost
        | ok v =>
          simp only [swapIn, hp, Bool.false_eq_true, if_false, hres] at hpost
          exact swapInMain_onDisk_removed _ eid false x (by exact hpre) hpost

theorem flushGo_onDisk (ks : List String) : ∀ s : State,
    ((flushGo ks s).2).onDisk = s.onDisk := by
  induction ks with
  | nil => intro s; rfl
  | cons k ks ih =>
    intro s
    cases hl : alookup s.pending k with
    | none => simp only [flushGo, hl]; exact ih s
    | some f =>
      cases f with
      | done r => simp only [flushGo, hl]; exact ih _
      | running tk =>
        cases hres : (completeTask s.disk tk).2 with
        | err => simp only [flushGo, hl, hres]
        | ok v => simp only [flushGo, hl, hres]; exact ih _

theorem advance_onDisk (s : State) (eid : String) :
    (advance s eid).onDisk = s.onDisk := by
  cases hl : alookup s.pending eid with
  | none => simp only [advance, hl]
  | some f =>
    cases f with
    | done r => simp only [advance, hl]
    | running tk => simp only [advance, hl]

end Swapper

namespace Swapper

theorem getFallback_state (s : State) (eid : String) :
    (getFallback s eid).2 = (swapIn s eid false).2 := by
  unfold getFallback
  cases h : (swapIn s eid false).1 with
  | error e => simp [h]
  | ok v => simp [h]

/-- Any id newly marked on disk by get_expert was resident before the
call and holds a save future afterwards (only the synchronous fallback
path can mark ids, via its evictions). -/
theorem getExpert_onDisk_new (s : State) (eid : String) (timeout : Option Nat)
    (waitOk : Bool) (x : String) (hpre : x ∉ s.onDisk)
    (hpost : x ∈ (getExpert s eid timeout waitOk).2.onDisk) :
    x ∈ s.cache.map Prod.fst ∧
      ∃ v, alookup (getExpert s eid timeout waitOk).2.pending x
        = some (.running (.save x v)) := by
  cases hc : alookup s.cache eid with
  | some v =>
    simp only [getExpert, hc] at hpost
    exact absurd hpost hpre
  | none =>
    cases hp : alookup s.pending eid with
    | none =>
      simp only [getExpert, hc, hp] at hpost ⊢
      rw [getFallback_state] at hpost ⊢
      exact swapIn_onDisk_new s eid false x hpre hpost
    | some f =>
      cases f with
      | done r =>
        cases r with
        | err =>
          simp only [getExpert, hc, hp] at hpost
          exact absurd hpost hpre
        | ok v =>
          simp only [getExpert, hc, hp] at hpost
          exact absurd hpost hpre
      | running tk =>
        cases timeout with
        | none =>
          simp only [getExpert, hc, hp] at hpost ⊢
          rw [getFallback_state] at hpost ⊢
          exact swapIn_onDisk_new s eid false x hpre hpost
        | some tmo =>
          cases waitOk with
          | true =>
            cases hres : (completeTask s.disk tk).2 with
            | err =>
              simp only [getExpert, hc, hp, if_true, hres] at hpost
              exact absurd hpost hpre
            | ok v =>
              simp only [getExpert, hc, hp, if_true, hres] at hpost
              exact absurd hpost hpre
          | false =>
            simp only [getExpert, hc, hp, Bool.false_eq_true, if_false] at hpost
            exact absurd hpost hpre

/-- get_expert removes an id from the on-disk set only through its
synchronous fallback and only for the requested id itself. -/
theorem getExpert_onDisk_removed (s : State) (eid : String) (timeout : Option Nat)
    (waitOk : Bool) (x : String) (hpre : x ∈ s.onDisk)
    (hpost : x ∉ (getExpert s eid timeout waitOk).2.onDisk) :
    x = eid := by
  cases hc : alookup s.cache eid with
  | some v =>
    simp only [getExpert, hc] at hpost
    exact absurd hpre hpost
  | none =>
    cases hp : alookup s.pending eid with
    | none =>
      simp only [getExpert, hc, hp] at hpost
      rw [getFallback_state] at hpost
      exact (swapIn_onDisk_removed s eid false x hpre hpost).2
    | some f =>
      cases f with
      | done r =>
        cases r with
        | err =>
          simp only [getExpert, hc, hp] at hpost
          exact absurd hpre hpost
        | ok v =>
          simp only [getExpert, hc, hp] at hpost
          exact absurd hpre hpost
      | running tk =>
        cases timeout with
        | none =>
          simp only [getExpert, hc, hp] at hpost
          rw [getFallback_state] at hpost
          exact (swapIn_onDisk_removed s eid false x hpre hpost).2
        | some tmo =>
          cases waitOk with
          | true =>
            cases hres : (completeTask s.disk tk).2 with
            | err =>
              simp only [getExpert, hc, hp, if_true, hres] at hpost
              exact absurd hpre hpost
            | ok v =>
              simp only [getExpert, hc, hp, if_true, hres] at hpost
              exact absurd hpre hpost
          | false =>
            simp only [getExpert, hc, hp, Bool.false_eq_true, if_false] at hpost
            exact absurd hpre hpost

/-- Claim C3 amended: an id is added to the on-disk set exactly when a
write-back is issued — by an eviction inside swap_in or get_expert, by a
synchronous swap_out of a resident record, or by a registration with
persist — and an id is removed from the set only by unregister_expert or
by a synchronous load inside swap_in or get_expert (the original claim
said removal happens only on unregister; the counterexample
onDisk_cleared_without_unregister shows the synchronous load of swap_in
also clears the marker, source line 124). -/
theorem onDiskSet_membership_characterization :
    (∀ (s : State) (eid : String) (v : CVal) (rest : List (String × CVal)),
        s.cache = (eid, v) :: rest →
        eid ∈ (swapOutLru s).onDisk ∧
          alookup (swapOutLru s).pending eid = some (.running (.save eid v))) ∧
    (∀ (s : State) (eid : String) (g u d m : Nat),
        eid ∈ ((registerExpert s eid g u d m true).2).onDisk) ∧
    (∀ (s : State) (eid : String) (e : EData),
        alookup s.cache eid = some (.edata e) →
        eid ∈ ((swapOut s eid).2).onDisk) ∧
    (∀ (s : State) (a : Act) (x : String),
        x ∉ s.onDisk → x ∈ ((stepAct s a).2).onDisk → issuesWriteBack s a x) ∧
    (∀ (s : State) (a : Act) (x : String),
        x ∈ s.onDisk → x ∉ ((stepAct s a).2).onDisk →
        a = .unregister x ∨ a = .swapIn x false ∨
          ∃ t w, a = .getExpert x t w) := by
  refine ⟨?_, ?_, ?_, ?_, ?_⟩
  · intro s eid v rest h
    rw [swapOutLru_spec s eid v rest h]
    exact ⟨(mem_sinsert _ _ _).2 (Or.inr rfl), alookup_aset_self _ _ _⟩
  · intro s eid g u d m
    simp only [registerExpert, if_true]
    exact (mem_sinsert _ _ _).2 (Or.inr rfl)
  · intro s eid e h
    simp only [swapOut, h]
    exact (mem_sinsert _ _ _).2 (Or.inr rfl)
  · intro s a x hpre hpost
    cases a with
    | swapIn e b =>
      exact swapIn_onDisk_new s e b x hpre hpost
    | getExpert e tmo w =>
      exact getExpert_onDisk_new s e tmo w x hpre hpost
    | swapOut e =>
      cases hc : alookup s.cache e with
      | none =>
        simp only [stepAct, swapOut, hc] at hpost
        exact absurd hpost hpre
      | some v =>
        cases v with
        | pytrue =>
          simp only [stepAct, swapOut, hc] at hpost
          exact absurd hpost hpre
        | edata ed =>
          simp only [stepAct, swapOut, hc] at hpost
          rcases (mem_sinsert _ _ _).1 hpost with hm | rfl
          · exact absurd hm hpre
          · exact ⟨rfl, ed, hc⟩
    | register e g u d m p =>
      cases p with
      | false =>
        simp only [stepAct, registerExpert, Bool.false_eq_true, if_false] at hpost
        exact absurd hpost hpre
      | true =>
        simp only [stepAct, registerExpert, if_true] at hpost
        rcases (mem_sinsert _ _ _).1 hpost with hm | rfl
        · exact absurd hm hpre
        · exact ⟨rfl, rfl⟩
    | unregister e =>
      by_cases hm : e ∈ s.onDisk
      · cases hd : alookup s.disk e with
        | none =>
          simp only [stepAct, unregisterExpert, hm, if_true, hd] at hpost
          exact absurd hpost hpre
        | some ed =>
          simp only [stepAct, unregisterExpert, hm, if_true, hd] at hpost
          exact absurd ((mem_sremove _ _ _).1 hpost).1 hpre
      · simp only [stepAct, unregisterExpert, hm, if_false] at hpost
        exact absurd hpost hpre
    | flush =>
      have := flushGo_onDisk (s.pending.map Prod.fst) s
      simp only [stepAct, flush] at hpost
      rw [this] at hpost
      exact absurd hpost hpre
    | advance e =>
      have := advance_onDisk s e
      simp only [stepAct] at hpost
      rw [this] at hpost
      exact absurd hpost hpre
  · intro s a x hpre hpost
    cases a with
    | swapIn e b =>
      obtain ⟨hb, hx⟩ := swapIn_onDisk_removed s e b x hpre hpost
      subst hb
      subst hx
      exact Or.inr (Or.inl rfl)
    | getExpert e tmo w =>
      have hx := getExpert_onDisk_removed s e tmo w x hpre hpost
      subst hx
      exact Or.inr (Or.inr ⟨tmo, w, rfl⟩)
    | swapOut e =>
      cases hc : alookup s.cache e with
      | none =>
        simp only [stepAct, swapOut, hc] at hpost
        exact absurd hpre hpost
      | some v =>
        cases v with
        | pytrue =>
          simp only [stepAct, swapOut, hc] at hpost
          exact absurd hpre hpost
        | edata ed =>
          simp only [stepAct, swapOut, hc] at hpost
          exact absurd (mem_sinsert_left _ _ _ hpre) hpost
    | register e g u d m p =>
      cases p with
      | false =>
        simp only [stepAct, registerExpert, Bool.false_eq_true, if_false] at hpost
        exact absurd hpre hpost
      | true =>
        simp only [stepAct, registerExpert, if_true] at hpost
        exact absurd (mem_sinsert_left _ _ _ hpre) hpost
    | unregister e =>
      by_cases hm : e ∈ s.onDisk
      · cases hd : alookup s.disk e with
        | none =>
          simp only [stepAct, unregisterExpert, hm, if_true, hd] at hpost
          exact absurd hpre hpost
        | some ed =>
          simp only [stepAct, unregisterExpert, hm, if_true, hd] at hpost
          by_cases hxe : x = e
          · exact Or.inl (by rw [hxe])
          · exact absurd ((mem_sremove _ _ _).2 ⟨hpre, hxe⟩) hpost
      · simp only [stepAct, unregisterExpert, hm, if_false] at hpost
        exact absurd hpre hpost
    | flush =>
      have := flushGo_onDisk (s.pending.map Prod.fst) s
      simp only [stepAct, flush] at hpost
      rw [this] at hpost
      exact absurd hpre hpost
    | advance e =>
      have := advance_onDisk s e
      simp only [stepAct] at hpost
      rw [this] at hpost
      exact absurd hpre hpost

/-- Witness for claim C3 (amended) at concrete inputs: evicting the head
record A of a two-resident state marks A on disk with a fresh save
future, and the concrete swap_in(C) that evicts A from the reachable
state c2ab both marks A and satisfies the issuance predicate. -/
theorem onDiskSet_membership_characterization_witness :
    ("A" ∈ (swapOutLru c2ab).onDisk ∧
      alookup (swapOutLru c2ab).pending "A"
        = some (.running (.save "A" (.edata ⟨1, 2, 3, 4⟩)))) ∧
    issuesWriteBack c2ab (.swapIn "C" false) "A" := by
  constructor
  · exact onDiskSet_membership_characterization.1 c2ab "A"
      (.edata ⟨1, 2, 3, 4⟩) [("B", .edata ⟨5, 6, 7, 8⟩)] (by decide)
  · exact onDiskSet_membership_characterization.2.2.2.1 c2ab
      (.swapIn "C" false) "A" (by decide) (by decide)

end Swapper

namespace Swapper

/-! ### Claim C5: erasure of the annotated semantics -/

theorem alookup_eraseC (l : List (String × CVal × Nat)) (x : String) :
    alookup (eraseC l) x = Option.map Prod.fst (alookup l x) := by
  induction l with
  | nil => rfl
  | cons p t ih =>
    obtain ⟨k, vt⟩ := p
    by_cases h : k = x
    · simp [eraseC, alookup, h]
    · simpa [eraseC, alookup, h] using ih

theorem eraseC_aerase (l : List (String × CVal × Nat)) (x : String) :
    eraseC (aerase l x) = aerase (eraseC l) x := by
  induction l with
  | nil => rfl
  | cons p t ih =>
    obtain ⟨k, vt⟩ := p
    by_cases h : k = x
    · simp [eraseC, aerase, h]
    · simpa [eraseC, aerase, h] using ih

theorem eraseC_aset (l : List (String × CVal × Nat)) (x : String) (v : CVal) (c : Nat) :
    eraseC (aset l x (v, c)) = aset (eraseC l) x v := by
  induction l with
  | nil => rfl
  | cons p t ih =>
    obtain ⟨k, vt⟩ := p
    by_cases h : k = x
    · simp [eraseC, aset, h]
    · simpa [eraseC, aset, h] using ih

theorem eraseC_append (l1 l2 : List (String × CVal × Nat)) :
    eraseC (l1 ++ l2) = eraseC l1 ++ eraseC l2 :=
  List.map_append _ l1 l2

theorem eraseC_length (l : List (String × CVal × Nat)) :
    (eraseC l).length = l.length :=
  List.length_map l _

theorem eraseC_nil_iff (l : List (String × CVal × Nat)) :
    eraseC l = [] ↔ l = [] := by
  cases l with
  | nil => simp [eraseC]
  | cons p t => simp [eraseC]

theorem eraseC_touch (l : List (String × CVal × Nat)) (x : String) (v : CVal) (c : Nat) :
    eraseC (aerase l x ++ [(x, v, c)]) = aerase (eraseC l) x ++ [(x, v)] := by
  rw [eraseC_append, eraseC_aerase]
  rfl

theorem moveToEnd_eraseC (l : List (String × CVal × Nat)) (x : String) (vt : CVal × Nat)
    (h : alookup l x = some vt) :
    moveToEnd (eraseC l) x = aerase (eraseC l) x ++ [(x, vt.1)] := by
  unfold moveToEnd
  rw [alookup_eraseC, h]
  rfl

theorem eraseA_recordAccessA (a : AState) (eid : String) :
    eraseA (recordAccessA a eid) = recordAccess (eraseA a) eid := rfl

theorem recordAccessA_cache (a : AState) (eid : String) :
    (recordAccessA a eid).cache = a.cache := rfl

theorem recordAccessA_clock (a : AState) (eid : String) :
    (recordAccessA a eid).clock = a.clock := rfl

theorem eraseA_swapOutLruA (a : AState) :
    eraseA (swapOutLruA a) = swapOutLru (eraseA a) := by
  cases hcs : a.cache with
  | nil =>
    have hce : (eraseA a).cache = [] := by
      show eraseC a.cache = []
      rw [hcs]
      rfl
    unfold swapOutLruA swapOutLru
    rw [hcs, hce]
  | cons p rest =>
    obtain ⟨k, v, c⟩ := p
    have hce : (eraseA a).cache = (k, v) :: eraseC rest := by
      show eraseC a.cache = _
      rw [hcs]
      rfl
    unfold swapOutLruA swapOutLru
    rw [hcs, hce]
    simp only [eraseA, State.mk.injEq]

theorem eraseA_evictLoopA (fuel t : Nat) (a : AState) :
    eraseA (evictLoopA fuel t a) = evictLoop fuel t (eraseA a) := by
  induction fuel generalizing a with
  | zero => rfl
  | succ n ih =>
    have hlen : (eraseA a).cache.length = a.cache.length := eraseC_length a.cache
    have hnil : ((eraseA a).cache = []) ↔ (a.cache = []) := eraseC_nil_iff a.cache
    unfold evictLoopA evictLoop
    by_cases hc : t ≤ a.cache.length ∧ a.cache ≠ []
    · rw [if_pos hc, if_pos (by rw [hlen, Ne, hnil]; exact hc), ih, eraseA_swapOutLruA]
    · rw [if_neg hc, if_neg (by rw [hlen, Ne, hnil]; exact hc)]

end Swapper

namespace Swapper

theorem eraseA_cache (a : AState) : (eraseA a).cache = eraseC a.cache := rfl

theorem eraseA_disk (a : AState) : (eraseA a).disk = a.disk := rfl

theorem eraseA_pending (a : AState) : (eraseA a).pending = a.pending := rfl

theorem eraseA_onDisk (a : AState) : (eraseA a).onDisk = a.onDisk := rfl

theorem eraseA_maxMemory (a : AState) : (eraseA a).maxMemory = a.maxMemory := rfl

theorem eraseA_touchA (a : AState) (x : String) (v : CVal) :
    eraseA (touchA a x v)
      = { eraseA a with cache := aerase (eraseA a).cache x ++ [(x, v)] } := by
  simp [touchA, eraseA, eraseC_touch]

theorem eraseP_swapInMainA (a : AState) (eid : String) (bg : Bool) :
    eraseP (swapInMainA a eid bg) = swapInMain (eraseA a) eid bg := by
  cases hc : alookup (recordAccessA a eid).cache eid with
  | some vt =>
    have hce : alookup (recordAccess (eraseA a) eid).cache eid = some vt.1 := by
      rw [recordAccess_cache, eraseA_cache, alookup_eraseC]
      rw [recordAccessA_cache] at hc
      rw [hc]
      rfl
    have hmte : moveToEnd (recordAccess (eraseA a) eid).cache eid
        = aerase (recordAccess (eraseA a) eid).cache eid ++ [(eid, vt.1)] := by
      unfold moveToEnd
      rw [hce]
    simp only [swapInMainA, swapInMain, hc, hce, eraseP, Prod.mk.injEq]
    refine ⟨trivial, ?_⟩
    rw [eraseA_touchA, eraseA_recordAccessA, hmte]
  | none =>
    have hce : alookup (recordAccess (eraseA a) eid).cache eid = none := by
      rw [recordAccess_cache, eraseA_cache, alookup_eraseC]
      rw [recordAccessA_cache] at hc
      rw [hc]
      rfl
    simp only [swapInMainA, swapInMain, hc, hce]
    generalize hA : evictLoopA (recordAccessA a eid).cache.length
        ((recordAccessA a eid).maxMemory - (if bg = true then 1 else 0))
        (recordAccessA a eid) = s4A
    have hlen : (recordAccess (eraseA a) eid).cache.length
        = (recordAccessA a eid).cache.length := by
      rw [← eraseA_recordAccessA, eraseA_cache]
      exact eraseC_length _
    have hs4 : evictLoop (recordAccess (eraseA a) eid).cache.length
        ((recordAccess (eraseA a) eid).maxMemory - (if bg = true then 1 else 0))
        (recordAccess (eraseA a) eid) = eraseA s4A := by
      have hmm2 : (recordAccess (eraseA a) eid).maxMemory
          = (recordAccessA a eid).maxMemory := rfl
      rw [hlen, hmm2, ← eraseA_recordAccessA, ← eraseA_evictLoopA, hA]
    rw [hs4]
    cases bg with
    | true =>
      simp only [if_true, eraseP, Prod.mk.injEq]
      refine ⟨trivial, ?_⟩
      simp [eraseA]
    | false =>
      simp only [Bool.false_eq_true, if_false, eraseA_disk]
      cases hd : alookup s4A.disk eid with
      | none =>
        simp only [hd]
        rfl
      | some d =>
        simp only [hd, eraseP, Prod.mk.injEq]
        refine ⟨trivial, ?_⟩
        rw [mte_aset, eraseA_cache]
        simp [eraseA, touchA, eraseC_touch]

end Swapper

namespace Swapper

theorem eraseP_swapInA (a : AState) (eid : String) (bg : Bool) :
    eraseP (swapInA a eid bg) = swapIn (eraseA a) eid bg := by
  cases hp : alookup a.pending eid with
  | none =>
    simp only [swapInA, swapIn, eraseA_pending, hp]
    exact eraseP_swapInMainA a eid bg
  | some f =>
    cases f with
    | done r =>
      simp only [swapInA, swapIn, eraseA_pending, hp]
      rw [eraseP_swapInMainA]
      congr 1
    | running tk =>
      cases bg with
      | true => simp only [swapInA, swapIn, eraseA_pending, hp, if_true]; rfl
      | false =>
        cases hres : (completeTask a.disk tk).2 with
        | err =>
          simp only [swapInA, swapIn, eraseA_pending, eraseA_disk, hp,
            Bool.false_eq_true, if_false, hres]
          simp [eraseP, eraseA]
        | ok v =>
          simp only [swapInA, swapIn, eraseA_pending, eraseA_disk, hp,
            Bool.false_eq_true, if_false, hres]
          rw [eraseP_swapInMainA]
          congr 1

theorem eraseP_getFallbackA (a : AState) (eid : String) :
    eraseP (getFallbackA a eid) = getFallback (eraseA a) eid := by
  simp only [getFallbackA, getFallback]
  have h := eraseP_swapInA a eid false
  have h1 : (swapIn (eraseA a) eid false).1 = (swapInA a eid false).1 :=
    congrArg Prod.fst h.symm
  have h2 : (swapIn (eraseA a) eid false).2 = eraseA (swapInA a eid false).2 :=
    congrArg Prod.snd h.symm
  rw [h1, h2]
  cases hr : (swapInA a eid false).1 with
  | error e => simp only [hr]; rfl
  | ok v => simp only [hr]; rfl

theorem eraseP_getExpertA (a : AState) (eid : String) (timeout : Option Nat)
    (waitOk : Bool) :
    eraseP (getExpertA a eid timeout waitOk) = getExpert (eraseA a) eid timeout waitOk := by
  cases hc : alookup a.cache eid with
  | some vt =>
    have hce : alookup (eraseA a).cache eid = some vt.1 := by
      rw [eraseA_cache, alookup_eraseC, hc]
      rfl
    have hmte : moveToEnd (eraseA a).cache eid
        = aerase (eraseA a).cache eid ++ [(eid, vt.1)] := by
      unfold moveToEnd
      rw [hce]
    simp only [getExpertA, getExpert, hc, hce, eraseP, Prod.mk.injEq]
    refine ⟨trivial, ?_⟩
    rw [eraseA_touchA, hmte]
  | none =>
    have hce : alookup (eraseA a).cache eid = none := by
      rw [eraseA_cache, alookup_eraseC, hc]
      rfl
    cases hp : alookup a.pending eid with
    | none =>
      simp only [getExpertA, getExpert, hc, hce, eraseA_pending, hp]
      exact eraseP_getFallbackA a eid
    | some f =>
      cases f with
      | done r =>
        cases r with
        | err => simp only [getExpertA, getExpert, hc, hce, eraseA_pending, hp]; rfl
        | ok v =>
          simp only [getExpertA, getExpert, hc, hce, eraseA_pending, hp,
            eraseP, Prod.mk.injEq]
          refine ⟨trivial, ?_⟩
          simp [eraseA, eraseC_aset]
      | running tk =>
        cases timeout with
        | none =>
          simp only [getExpertA, getExpert, hc, hce, eraseA_pending, hp]
          exact eraseP_getFallbackA a eid
        | some tmo =>
          cases waitOk with
          | false =>
            simp only [getExpertA, getExpert, hc, hce, eraseA_pending, hp,
              Bool.false_eq_true, if_false]
            rfl
          | true =>
            cases hres : (completeTask a.disk tk).2 with
            | err =>
              simp only [getExpertA, getExpert, hc, hce, eraseA_pending,
                eraseA_disk, hp, if_true, hres, eraseP, Prod.mk.injEq]
              refine ⟨trivial, ?_⟩
              simp [eraseA]
            | ok v =>
              simp only [getExpertA, getExpert, hc, hce, eraseA_pending,
                eraseA_disk, hp, if_true, hres, eraseP, Prod.mk.injEq]
              refine ⟨trivial, ?_⟩
              simp [eraseA, eraseC_aset]

theorem eraseP_swapOutA (a : AState) (eid : String) :
    eraseP (swapOutA a eid) = swapOut (eraseA a) eid := by
  cases hc : alookup a.cache eid with
  | none =>
    have hce : alookup (eraseA a).cache eid = none := by
      rw [eraseA_cache, alookup_eraseC, hc]
      rfl
    simp only [swapOutA, swapOut, hc, hce]
    rfl
  | some vt =>
    have hce : alookup (eraseA a).cache eid = some vt.1 := by
      rw [eraseA_cache, alookup_eraseC, hc]
      rfl
    cases hv : vt.1 with
    | pytrue =>
      rw [hv] at hce
      simp only [swapOutA, swapOut, hc, hce, hv]
      rfl
    | edata e =>
      rw [hv] at hce
      simp only [swapOutA, swapOut, hc, hce, hv, eraseP, Prod.mk.injEq]
      refine ⟨trivial, ?_⟩
      simp [eraseA, eraseC_aerase]

theorem eraseP_registerExpertA (a : AState) (eid : String) (g u d m : Nat)
    (persist : Bool) :
    eraseP (registerExpertA a eid g u d m persist)
      = registerExpert (eraseA a) eid g u d m persist := by
  have hmte : moveToEnd (aset (eraseA a).cache eid (.edata ⟨g, u, d, m⟩)) eid
      = aerase (eraseA a).cache eid ++ [(eid, .edata ⟨g, u, d, m⟩)] :=
    mte_aset _ _ _
  cases persist with
  | true =>
    simp only [registerExpertA, registerExpert, if_true, eraseP, Prod.mk.injEq]
    refine ⟨trivial, ?_⟩
    rw [hmte]
    simp [eraseA, touchA, eraseC_touch]
  | false =>
    simp only [registerExpertA, registerExpert, Bool.false_eq_true, if_false,
      eraseP, Prod.mk.injEq]
    refine ⟨trivial, ?_⟩
    rw [hmte]
    simp [eraseA, touchA, eraseC_touch]

theorem eraseP_unregisterExpertA (a : AState) (eid : String) :
    eraseP (unregisterExpertA a eid) = unregisterExpert (eraseA a) eid := by
  by_cases hm : eid ∈ a.onDisk
  · cases hd : alookup a.disk eid with
    | none =>
      simp only [unregisterExpertA, unregisterExpert, eraseA_onDisk, eraseA_disk,
        hm, if_true, hd, eraseP, Prod.mk.injEq]
      refine ⟨trivial, ?_⟩
      simp [eraseA, eraseC_aerase]
    | some e =>
      simp only [unregisterExpertA, unregisterExpert, eraseA_onDisk, eraseA_disk,
        hm, if_true, hd, eraseP, Prod.mk.injEq]
      refine ⟨trivial, ?_⟩
      simp [eraseA, eraseC_aerase]
  · simp only [unregisterExpertA, unregisterExpert, eraseA_onDisk, eraseA_disk,
      hm, if_false, eraseP, Prod.mk.injEq]
    refine ⟨trivial, ?_⟩
    simp [eraseA, eraseC_aerase]

theorem eraseP_flushGoA (ks : List String) : ∀ a : AState,
    eraseP (flushGoA ks a) = flushGo ks (eraseA a) := by
  induction ks with
  | nil => intro a; rfl
  | cons k ks ih =>
    intro a
    cases hl : alookup a.pending k with
    | none =>
      simp only [flushGoA, flushGo, eraseA_pending, hl]
      exact ih a
    | some f =>
      cases f with
      | done r =>
        simp only [flushGoA, flushGo, eraseA_pending, hl]
        rw [ih]
        congr 1
      | running tk =>
        cases hres : (completeTask a.disk tk).2 with
        | err =>
          simp only [flushGoA, flushGo, eraseA_pending, eraseA_disk, hl, hres]
          simp [eraseP, eraseA]
        | ok v =>
          simp only [flushGoA, flushGo, eraseA_pending, eraseA_disk, hl, hres]
          rw [ih]
          congr 1

theorem eraseP_flushA (a : AState) :
    eraseP (flushA a) = flush (eraseA a) := by
  unfold flushA flush
  rw [eraseA_pending]
  exact eraseP_flushGoA _ a

theorem eraseA_advanceA (a : AState) (eid : String) :
    eraseA (advanceA a eid) = advance (eraseA a) eid := by
  cases hl : alookup a.pending eid with
  | none => simp only [advanceA, advance, eraseA_pending, hl]
  | some f =>
    cases f with
    | done r => simp only [advanceA, advance, eraseA_pending, hl]
    | running tk =>
      simp only [advanceA, advance, eraseA_pending, eraseA_disk, hl]
      simp [eraseA]

theorem eraseP_stepActA (a : AState) (act : Act) :
    eraseP (stepActA a act) = stepAct (eraseA a) act := by
  cases act with
  | swapIn e b => exact eraseP_swapInA a e b
  | getExpert e t w => exact eraseP_getExpertA a e t w
  | swapOut e => exact eraseP_swapOutA a e
  | register e g u d m p => exact eraseP_registerExpertA a e g u d m p
  | unregister e => exact eraseP_unregisterExpertA a e
  | flush => exact eraseP_flushA a
  | advance e =>
    simp only [stepActA, stepAct, eraseP, Prod.mk.injEq]
    exact ⟨trivial, eraseA_advanceA a e⟩

theorem eraseA_runA (acts : List Act) : ∀ a : AState,
    eraseA (runA a acts) = run (eraseA a) acts := by
  induction acts with
  | nil => intro a; rfl
  | cons act rest ih =>
    intro a
    show eraseA (runA (stepActA a act).2 rest) = run (stepAct (eraseA a) act).2 rest
    rw [ih, ← eraseP_stepActA]
    rfl

end Swapper

namespace Swapper

/-! ### Claim C5: the sortedness invariant -/

theorem aset_not_mem {β : Type} (l : List (String × β)) (x : String) (v : β)
    (h : x ∉ l.map Prod.fst) : aset l x v = l ++ [(x, v)] := by
  induction l with
  | nil => rfl
  | cons p t ih =>
    obtain ⟨k, w⟩ := p
    simp only [List.map_cons, List.mem_cons] at h
    push_neg at h
    have hk : ¬ (k = x) := fun hh => h.1 hh.symm
    simp [aset, hk, ih h.2]

theorem invA_appendFresh (a : AState) (x : String) (v : CVal)
    (l : List (String × CVal × Nat)) (h : InvA a)
    (hsub : List.Sublist l a.cache) :
    cacheSorted (l ++ [(x, v, a.clock)]) ∧
      ∀ p ∈ l ++ [(x, v, a.clock)], p.2.2 < a.clock + 1 := by
  obtain ⟨hs, hb⟩ := h
  constructor
  · refine (List.pairwise_append).2
      ⟨hs.sublist hsub, List.pairwise_singleton _ _, ?_⟩
    intro p hp q hq
    simp only [List.mem_singleton] at hq
    subst hq
    exact hb p (hsub.subset hp)
  · intro p hp
    rcases List.mem_append.1 hp with h1 | h2
    · exact Nat.lt_succ_of_lt (hb p (hsub.subset h1))
    · simp only [List.mem_singleton] at h2
      subst h2
      exact Nat.lt_succ_self _

theorem invA_touchA (a : AState) (x : String) (v : CVal) (h : InvA a) :
    InvA (touchA a x v) :=
  invA_appendFresh a x v (aerase a.cache x) h (aerase_sublist a.cache x)

theorem invA_asetFresh (a : AState) (x : String) (v : CVal) (h : InvA a)
    (hx : alookup a.cache x = none) :
    InvA { a with cache := aset a.cache x (v, a.clock), clock := a.clock + 1 } := by
  have hnm : x ∉ a.cache.map Prod.fst := (alookup_eq_none _ _).1 hx
  have := invA_appendFresh a x v a.cache h (List.Sublist.refl _)
  constructor
  · show cacheSorted (aset a.cache x (v, a.clock))
    rw [aset_not_mem _ _ _ hnm]
    exact this.1
  · show ∀ p ∈ aset a.cache x (v, a.clock), p.2.2 < a.clock + 1
    rw [aset_not_mem _ _ _ hnm]
    exact this.2

theorem invA_cacheErase (a : AState) (x : String) (h : InvA a) :
    InvA { a with cache := aerase a.cache x } := by
  obtain ⟨hs, hb⟩ := h
  exact ⟨hs.sublist (aerase_sublist _ _),
    fun p hp => hb p ((aerase_sublist a.cache x).subset hp)⟩

theorem invA_swapOutLruA (a : AState) (h : InvA a) : InvA (swapOutLruA a) := by
  cases hcs : a.cache with
  | nil =>
    unfold swapOutLruA
    rw [hcs]
    exact h
  | cons p rest =>
    obtain ⟨k, v, c⟩ := p
    unfold swapOutLruA
    rw [hcs]
    obtain ⟨hs, hb⟩ := h
    rw [hcs] at hs hb
    exact ⟨hs.of_cons, fun q hq => hb q (List.mem_cons_of_mem _ hq)⟩

theorem invA_evictLoopA (fuel t : Nat) (a : AState) (h : InvA a) :
    InvA (evictLoopA fuel t a) := by
  induction fuel generalizing a with
  | zero => exact h
  | succ n ih =>
    unfold evictLoopA
    by_cases hc : t ≤ a.cache.length ∧ a.cache ≠ []
    · rw [if_pos hc]
      exact ih _ (invA_swapOutLruA a h)
    · rw [if_neg hc]
      exact h

theorem invA_swapInMainA (a : AState) (eid : String) (bg : Bool) (h : InvA a) :
    InvA (swapInMainA a eid bg).2 := by
  cases hc : alookup (recordAccessA a eid).cache eid with
  | some vt =>
    simp only [swapInMainA, hc]
    exact invA_touchA (recordAccessA a eid) eid vt.1 h
  | none =>
    simp only [swapInMainA, hc]
    have h4 : InvA (evictLoopA (recordAccessA a eid).cache.length
        ((recordAccessA a eid).maxMemory - (if bg = true then 1 else 0))
        (recordAccessA a eid)) :=
      invA_evictLoopA _ _ _ h
    cases bg with
    | true =>
      simp only [if_true]
      exact h4
    | false =>
      simp only [Bool.false_eq_true, if_false]
      cases hd : alookup (evictLoopA (recordAccessA a eid).cache.length
          ((recordAccessA a eid).maxMemory - 0) (recordAccessA a eid)).disk eid with
      | none =>
        simp only [hd]
        exact h4
      | some d =>
        simp only [hd]
        exact invA_touchA _ eid (.edata d) h4

theorem invA_swapInA (a : AState) (eid : String) (bg : Bool) (h : InvA a) :
    InvA (swapInA a eid bg).2 := by
  cases hp : alookup a.pending eid with
  | none =>
    simp only [swapInA, hp]
    exact invA_swapInMainA a eid bg h
  | some f =>
    cases f with
    | done r =>
      simp only [swapInA, hp]
      exact invA_swapInMainA _ eid bg h
    | running tk =>
      cases bg with
      | true =>
        simp only [swapInA, hp, if_true]
        exact h
      | false =>
        cases hres : (completeTask a.disk tk).2 with
        | err =>
          simp only [swapInA, hp, Bool.false_eq_true, if_false, hres]
          exact h
        | ok v =>
          simp only [swapInA, hp, Bool.false_eq_true, if_false, hres]
          exact invA_swapInMainA _ eid false h

end Swapper

namespace Swapper

theorem getFallbackA_state (a : AState) (eid : String) :
    (getFallbackA a eid).2 = (swapInA a eid false).2 := by
  simp only [getFallbackA]
  cases h : (swapInA a eid false).1 with
  | error e => simp [h]
  | ok v => simp [h]

theorem invA_getExpertA (a : AState) (eid : String) (timeout : Option Nat)
    (waitOk : Bool) (h : InvA a) :
    InvA (getExpertA a eid timeout waitOk).2 := by
  cases hc : alookup a.cache eid with
  | some vt =>
    simp only [getExpertA, hc]
    exact invA_touchA a eid vt.1 h
  | none =>
    cases hp : alookup a.pending eid with
    | none =>
      simp only [getExpertA, hc, hp]
      rw [getFallbackA_state]
      exact invA_swapInA a eid false h
    | some f =>
      cases f with
      | done r =>
        cases r with
        | err =>
          simp only [getExpertA, hc, hp]
          exact h
        | ok v =>
          simp only [getExpertA, hc, hp]
          exact invA_asetFresh a eid v h hc
      | running tk =>
        cases timeout with
        | none =>
          simp only [getExpertA, hc, hp]
          rw [getFallbackA_state]
          exact invA_swapInA a eid false h
        | some tmo =>
          cases waitOk with
          | false =>
            simp only [getExpertA, hc, hp, Bool.false_eq_true, if_false]
            exact h
          | true =>
            cases hres : (completeTask a.disk tk).2 with
            | err =>
              simp only [getExpertA, hc, hp, if_true, hres]
              exact h
            | ok v =>
              simp only [getExpertA, hc, hp, if_true, hres]
              exact invA_asetFresh a eid v h hc

theorem invA_swapOutA (a : AState) (eid : String) (h : InvA a) :
    InvA (swapOutA a eid).2 := by
  cases hc : alookup a.cache eid with
  | none =>
    simp only [swapOutA, hc]
    exact h
  | some vt =>
    cases hv : vt.1 with
    | pytrue =>
      simp only [swapOutA, hc, hv]
      exact h
    | edata e =>
      simp only [swapOutA, hc, hv]
      exact invA_cacheErase a eid h

theorem invA_registerExpertA (a : AState) (eid : String) (g u d m : Nat)
    (persist : Bool) (h : InvA a) :
    InvA (registerExpertA a eid g u d m persist).2 := by
  cases persist with
  | true =>
    simp only [registerExpertA, if_true]
    exact invA_touchA a eid (.edata ⟨g, u, d, m⟩) h
  | false =>
    simp only [registerExpertA, Bool.false_eq_true, if_false]
    exact invA_touchA a eid (.edata ⟨g, u, d, m⟩) h

theorem invA_unregisterExpertA (a : AState) (eid : String) (h : InvA a) :
    InvA (unregisterExpertA a eid).2 := by
  by_cases hm : eid ∈ a.onDisk
  · cases hd : alookup a.disk eid with
    | none =>
      simp only [unregisterExpertA, hm, if_true, hd]
      exact invA_cacheErase a eid h
    | some e =>
      simp only [unregisterExpertA, hm, if_true, hd]
      exact invA_cacheErase a eid h
  · simp only [unregisterExpertA, hm, if_false]
    exact invA_cacheErase a eid h

theorem invA_flushGoA (ks : List String) : ∀ a : AState, InvA a →
    InvA (flushGoA ks a).2 := by
  induction ks with
  | nil => intro a h; exact h
  | cons k ks ih =>
    intro a h
    cases hl : alookup a.pending k with
    | none =>
      simp only [flushGoA, hl]
      exact ih a h
    | some f =>
      cases f with
      | done r =>
        simp only [flushGoA, hl]
        exact ih _ h
      | running tk =>
        cases hres : (completeTask a.disk tk).2 with
        | err =>
          simp only [flushGoA, hl, hres]
          exact h
        | ok v =>
          simp only [flushGoA, hl, hres]
          exact ih _ h

theorem invA_advanceA (a : AState) (eid : String) (h : InvA a) :
    InvA (advanceA a eid) := by
  cases hl : alookup a.pending eid with
  | none => simp only [advanceA, hl]; exact h
  | some f =>
    cases f with
    | done r => simp only [advanceA, hl]; exact h
    | running tk => simp only [advanceA, hl]; exact h

theorem invA_stepActA (a : AState) (act : Act) (h : InvA a) :
    InvA (stepActA a act).2 := by
  cases act with
  | swapIn e b => exact invA_swapInA a e b h
  | getExpert e t w => exact invA_getExpertA a e t w h
  | swapOut e => exact invA_swapOutA a e h
  | register e g u d m p => exact invA_registerExpertA a e g u d m p h
  | unregister e => exact invA_unregisterExpertA a e h
  | flush => exact invA_flushGoA _ a h
  | advance e => exact invA_advanceA a e h

theorem invA_runA (acts : List Act) : ∀ a : AState, InvA a →
    InvA (runA a acts) := by
  induction acts with
  | nil => intro a h; exact h
  | cons act rest ih =>
    intro a h
    exact ih _ (invA_stepActA a act h)

theorem invA_emptyA (mm : Nat) : InvA (emptyA mm) := by
  constructor
  · exact List.Pairwise.nil
  · intro p hp
    simp [emptyA] at hp

/-- Claim C5: LRU correctness.  The annotated run erases to the code
semantics exactly; on every state reachable by any event sequence the
memory cache is strictly sorted by last-promotion/insertion time (head
least recent); and on any state whose cache is so sorted, the record that
_swap_out_lru evicts — the head — is the one least recently promoted or
inserted among the current residents. -/
theorem lru_eviction_correct (mm : Nat) (acts : List Act) :
    eraseA (runA (emptyA mm) acts) = run (emptyState mm) acts ∧
    cacheSorted (runA (emptyA mm) acts).cache ∧
    (∀ (b : AState) (eid : String) (v : CVal) (c : Nat)
        (rest : List (String × CVal × Nat)),
        cacheSorted b.cache → b.cache = (eid, v, c) :: rest →
        (∀ q ∈ b.cache, c ≤ q.2.2) ∧ (swapOutLruA b).cache = rest) := by
  refine ⟨?_, ?_, ?_⟩
  · rw [eraseA_runA]
    rfl
  · exact (invA_runA acts (emptyA mm) (invA_emptyA mm)).1
  · intro b eid v c rest hs hb
    constructor
    · intro q hq
      rw [hb] at hq hs
      rcases List.mem_cons.1 hq with rfl | hq2
      · exact Nat.le_refl _
      · exact Nat.le_of_lt ((List.pairwise_cons.1 hs).1 q hq2)
    · unfold swapOutLruA
      rw [hb]

/-- Witness for claim C5 at concrete inputs: a sorted two-entry cache
where the head has the minimal timestamp and is the entry the eviction
routine pops. -/
theorem lru_eviction_correct_witness :
    (∀ q ∈ c5wit.cache, 5 ≤ q.2.2) ∧
      (swapOutLruA c5wit).cache = [("B", .pytrue, 7)] :=
  (lru_eviction_correct 2 []).2.2 c5wit "A" (.edata ⟨1, 2, 3, 4⟩) 5
    [("B", .pytrue, 7)] (by decide) (by decide)

end Swapper
